import Mathlib

/-! mapset: set algebra over Go maps

A shallow embedding of `github.com/jimmyfrasche/mapset` (`contains.go`, `merge.go`,
`ops.go`, `set.go`, `bool.go`) and of its `multiset` package.

A Go `map[K]V` is modelled by the list of its entries.  The order of the list is the
order in which a `range` loop visits the entries, which Go leaves unspecified, so
results are stated for every order.  A list is a well formed map when no key occurs
twice (`WF`).  Functions assume but do not require well formed inputs; separate lemmas
show that they produce well formed outputs.

A nil map reads as the empty map: a lookup gives the zero value, a `range` loop visits
nothing and `delete` does nothing.  It differs from the empty map only when it is stored
into, which panics.  The functions of ops.go store into a map they make, and of the
methods modelled here only `Of.Inc` stores into its receiver; so the receiver of `Of.Inc`,
and of `Of.IncDec` which calls it, is an `Option`, with `none` for the nil map, and
everywhere else the empty list stands for the nil map too.
-/

namespace mapset

/-- A Go `map[K]V`: its entries, in the order a `range` loop visits them. -/
abbrev GoMap (K V : Type) := List (K × V)

/-- The keys of a map, in visiting order. -/
def keys {K V : Type} (m : GoMap K V) : List K := m.map Prod.fst

/-- A list of entries is a map when no key is stored twice. -/
def WF {K V : Type} (m : GoMap K V) : Prop := (keys m).Nodup

instance {K V : Type} [DecidableEq K] (m : GoMap K V) : Decidable (WF m) := by
  unfold WF; infer_instance

/-- The Go expression `v, ok := m[k]`: `none` stands for `ok == false`. -/
def get? {K V : Type} [DecidableEq K] : GoMap K V → K → Option V
  | [], _ => none
  | (k', v) :: t, k => if k' = k then some v else get? t k

/-- The Go statement `m[k] = v`. -/
def set {K V : Type} [DecidableEq K] : GoMap K V → K → V → GoMap K V
  | [], k, v => [(k, v)]
  | (k', v') :: t, k, v => if k' = k then (k, v) :: t else (k', v') :: set t k v

/-- The Go statement `delete(m, k)`. -/
def delete {K V : Type} [DecidableEq K] (m : GoMap K V) (k : K) : GoMap K V :=
  m.filter (fun e => decide (e.1 ≠ k))

/-- The type `ContainsFunc[V]`: a function value that may be nil. -/
abbrev ContainsFunc (V : Type) := Option (V → Bool)

/-- The type `MergeFunc[V]`: a function value that may be nil. -/
abbrev MergeFunc (V : Type) := Option (V → V → V)

/-- The method `ContainsFunc.Check` of contains.go. -/
def ContainsFunc.Check {V : Type} (c : ContainsFunc V) (v : V) : Bool :=
  match c with
  | none => true
  | some f => f v

/-- The method `MergeFunc.Into` of merge.go. -/
def MergeFunc.Into {V : Type} (m : MergeFunc V) (lhs rhs : V) : V :=
  match m with
  | none => lhs
  | some f => f lhs rhs

/-- The function `Contains` of contains.go. -/
def Contains {K V : Type} [DecidableEq K] (m : GoMap K V) (key : K)
    (contains : ContainsFunc V) : Bool :=
  match get? m key with
  | none => false
  | some v => contains.Check v

/-- The body of the first loop of `Union` (also the loop body of `Clone`). -/
def keepStep {K V : Type} [DecidableEq K] (contains : ContainsFunc V)
    (out : GoMap K V) (e : K × V) : GoMap K V :=
  if contains.Check e.2 then set out e.1 e.2 else out

/-- The body of the second loop of `Union`. -/
def unionStep {K V : Type} [DecidableEq K] (contains : ContainsFunc V) (merge : MergeFunc V)
    (out : GoMap K V) (e : K × V) : GoMap K V :=
  if contains.Check e.2 then
    match get? out e.1 with
    | none => set out e.1 e.2
    | some L =>
      let v := merge.Into L e.2
      let out := set out e.1 v
      if !contains.Check v then delete out e.1 else out
  else out

/-- The function `Union` of ops.go. -/
def Union {K V : Type} [DecidableEq K] (lhs rhs : GoMap K V)
    (contains : ContainsFunc V) (merge : MergeFunc V) : GoMap K V :=
  let out := lhs.foldl (keepStep contains) []
  rhs.foldl (unionStep contains merge) out

/-- The loop body of `Intersect`. -/
def intersectStep {K V : Type} [DecidableEq K] (rhs : GoMap K V) (contains : ContainsFunc V)
    (merge : MergeFunc V) (out : GoMap K V) (e : K × V) : GoMap K V :=
  match get? rhs e.1 with
  | none => out
  | some vp =>
    if contains.Check e.2 && contains.Check vp then
      let vf := merge.Into e.2 vp
      if contains.Check vf then set out e.1 vf else out
    else out

/-- The function `Intersect` of ops.go. -/
def Intersect {K V : Type} [DecidableEq K] (lhs rhs : GoMap K V)
    (contains : ContainsFunc V) (merge : MergeFunc V) : GoMap K V :=
  lhs.foldl (intersectStep rhs contains merge) []

/-- The loop of `subset`, started with the counter `len`: it returns `(0, false)` at the
first entry of `lhs` that qualifies and is not contained in `rhs`, and counts every
other entry it visits. -/
def subsetLoop {K V : Type} [DecidableEq K] (rhs : GoMap K V) (contains : ContainsFunc V) :
    GoMap K V → Nat → Nat × Bool
  | [], len => (len, true)
  | (k, v) :: t, len =>
    if contains.Check v && !Contains rhs k contains then (0, false)
    else subsetLoop rhs contains t (len + 1)

/-- The function `subset` of ops.go. -/
def subset {K V : Type} [DecidableEq K] (lhs rhs : GoMap K V)
    (contains : ContainsFunc V) : Nat × Bool :=
  subsetLoop rhs contains lhs 0

/-- The function `Equal` of ops.go. -/
def Equal {K V : Type} [DecidableEq K] (lhs rhs : GoMap K V)
    (contains : ContainsFunc V) : Bool :=
  let (m, ok) := subset lhs rhs contains
  if !ok then false
  else
    let (n, ok) := subset rhs lhs contains
    ok && m == n

/-- The function `Subset` of ops.go. -/
def Subset {K V : Type} [DecidableEq K] (lhs rhs : GoMap K V)
    (contains : ContainsFunc V) : Bool :=
  (subset lhs rhs contains).2

/-- The function `ProperSubset` of ops.go; `len(rhs)` is the number of stored entries. -/
def ProperSubset {K V : Type} [DecidableEq K] (lhs rhs : GoMap K V)
    (contains : ContainsFunc V) : Bool :=
  let (n, ok) := subset lhs rhs contains
  if !ok then false
  else if rhs.length == n then false
  else
    let (_, ok) := subset rhs lhs contains
    !ok

/-- The function `Len` of ops.go. -/
def Len {K V : Type} (m : GoMap K V) (contains : ContainsFunc V) : Nat :=
  m.foldl (fun n e => if contains.Check e.2 then n + 1 else n) 0

/-- The function `containsBool` of bool.go. -/
def containsBool (b : Bool) : Bool := b

/-- The function `mergeBool` of bool.go. -/
def mergeBool (lhs rhs : Bool) : Bool := lhs || rhs

/-- The method `Bool.Subset` of bool.go. -/
def Bool.Subset {K : Type} [DecidableEq K] (b o : GoMap K Bool) : Bool :=
  mapset.Subset b o (some containsBool)

/-- The method `Bool.ProperSubset` of bool.go. -/
def Bool.ProperSubset {K : Type} [DecidableEq K] (b o : GoMap K Bool) : Bool :=
  mapset.Subset b o (some containsBool)

/-- The method `Set.ProperSubset` of set.go; `struct{}` is `Unit`. -/
def Set.ProperSubset {K : Type} [DecidableEq K] (s o : GoMap K Unit) : Bool :=
  mapset.ProperSubset s o none

/-- A key qualifies in a map when it is stored with a value that passes the check:
the value it is stored with, if it qualifies. -/
def qual? {K V : Type} [DecidableEq K] (m : GoMap K V) (contains : ContainsFunc V)
    (k : K) : Option V :=
  (get? m k).filter contains.Check

/-- What one pass of the second loop of `Union` does to the output at the visited key. -/
def unionAt {V : Type} (contains : ContainsFunc V) (merge : MergeFunc V)
    (v : V) (o : Option V) : Option V :=
  if contains.Check v then
    match o with
    | none => some v
    | some L => if contains.Check (merge.Into L v) then some (merge.Into L v) else none
  else o

/-- A merge function that may panic: `Except.error` carries the value passed to `panic`. -/
abbrev MergeFuncP (ε V : Type) := Option (V → V → Except ε V)

/-- The method `MergeFunc.Into` of merge.go, for a merge function that may panic. -/
def MergeFuncP.Into {ε V : Type} (m : MergeFuncP ε V) (lhs rhs : V) : Except ε V :=
  match m with
  | none => .ok lhs
  | some f => f lhs rhs

/-- The body of the second loop of `Union`, for a merge function that may panic: a panic
of the merge leaves the loop at once. -/
def unionStepP {ε K V : Type} [DecidableEq K] (contains : ContainsFunc V)
    (merge : MergeFuncP ε V) (out : GoMap K V) (e : K × V) : Except ε (GoMap K V) :=
  if contains.Check e.2 then
    match get? out e.1 with
    | none => .ok (set out e.1 e.2)
    | some L =>
      match merge.Into L e.2 with
      | .error err => .error err
      | .ok v =>
        let out := set out e.1 v
        if !contains.Check v then .ok (delete out e.1) else .ok out
  else .ok out

/-- The function `Union` of ops.go, called with a merge function that may panic. -/
def UnionP {ε K V : Type} [DecidableEq K] (lhs rhs : GoMap K V)
    (contains : ContainsFunc V) (merge : MergeFuncP ε V) : Except ε (GoMap K V) :=
  let out := lhs.foldl (keepStep contains) []
  rhs.foldlM (unionStepP contains merge) out

/-- The loop body of `Diff`, and of each loop of `SymDiff`: `other` is the operand that
is not ranged over. -/
def diffStep {K V : Type} [DecidableEq K] (other : GoMap K V) (contains : ContainsFunc V)
    (out : GoMap K V) (e : K × V) : GoMap K V :=
  if contains.Check e.2 && !Contains other e.1 contains then set out e.1 e.2 else out

/-- The function `Diff` of ops.go. -/
def Diff {K V : Type} [DecidableEq K] (lhs rhs : GoMap K V)
    (contains : ContainsFunc V) : GoMap K V :=
  lhs.foldl (diffStep rhs contains) []

/-- The function `SymDiff` of ops.go. -/
def SymDiff {K V : Type} [DecidableEq K] (lhs rhs : GoMap K V)
    (contains : ContainsFunc V) : GoMap K V :=
  let out := lhs.foldl (diffStep rhs contains) []
  rhs.foldl (diffStep lhs contains) out

/-- The function `Clone` of ops.go. -/
def Clone {K V : Type} [DecidableEq K] (m : GoMap K V) (contains : ContainsFunc V) :
    GoMap K V :=
  m.foldl (keepStep contains) []

/-- The loop body of `Purge`. -/
def purgeStep {K V : Type} [DecidableEq K] (contains : ContainsFunc V)
    (m : GoMap K V) (e : K × V) : GoMap K V :=
  if !contains.Check e.2 then delete m e.1 else m

/-- The function `Purge` of ops.go: the map after the call.  The loop ranges over the
entries of `m` and deletes from `m` the entry it visits, so it visits every entry the
call started with. -/
def Purge {K V : Type} [DecidableEq K] (m : GoMap K V) (contains : ContainsFunc V) :
    GoMap K V :=
  match contains with
  | none => m
  | some _ => m.foldl (purgeStep contains) m

/-- The keys that qualify in `m`, in visiting order. -/
def qualKeys {K V : Type} (m : GoMap K V) (contains : ContainsFunc V) : List K :=
  (m.filter (fun e => contains.Check e.2)).map Prod.fst

/-- The keys that qualify in both `a` and `b`. -/
def bothKeys {K V : Type} [DecidableEq K] (a b : GoMap K V) (contains : ContainsFunc V) :
    List K :=
  (qualKeys a contains).filter (fun k => Contains b k contains)

/-- The keys that qualify in both `a` and `b` and whose merged value fails the check. -/
def demotedKeys {K V : Type} [DecidableEq K] (a b : GoMap K V) (contains : ContainsFunc V)
    (merge : MergeFunc V) : List K :=
  (a.filter (fun e => contains.Check e.2 &&
    match get? b e.1 with
    | some w => contains.Check w && !contains.Check (merge.Into e.2 w)
    | none => false)).map Prod.fst

end mapset

namespace multiset

/-- The values a multiset method panics with: `ErrOverflow`, and the run time error
`assignment to entry in nil map` of a store into a nil map. -/
inductive Error where
  | ErrOverflow
  | NilMapAssignment
  deriving DecidableEq, Repr

/-- The function `min` of multiset.go. -/
def min (a b : Nat) : Nat := if a < b then a else b

/-- The function `max` of multiset.go. -/
def max (a b : Nat) : Nat := if a < b then b else a

/-- The function `properSubtraction` of multiset.go. -/
def properSubtraction (a b : Nat) : Nat := if a < b then 0 else a - b

/-- The function `sum` of multiset.go: `bits.Add64(a, b, 0)` returns the low 64 bits of
the sum and its carry. -/
def sum (a b : Nat) : Except Error Nat :=
  let v := (a + b) % 2 ^ 64
  let over := (a + b) / 2 ^ 64
  if over ≠ 0 then .error .ErrOverflow else .ok v

/-- The function `in` of multiset.go. -/
def in_ (n : Nat) : Bool := decide (n > 0)

/-- The type `multiset.Of[K]`, a `map[K]uint64`. -/
abbrev Of (K : Type) := mapset.GoMap K Nat

/-- A list of entries is a `map[K]uint64` when no key is stored twice and every stored
multiplicity is a `uint64`. -/
def Of.WF {K : Type} (m : Of K) : Prop := mapset.WF m ∧ ∀ e ∈ m, e.2 < 2 ^ 64

instance {K : Type} [DecidableEq K] (m : Of K) : Decidable (Of.WF m) := by
  unfold Of.WF; infer_instance

/-- The Go expression `m[k]` on a multiset: the zero value when `k` is not stored. -/
def Of.mult {K : Type} [DecidableEq K] (m : Of K) (k : K) : Nat :=
  (mapset.get? m k).getD 0

/-- The method `Of.Union` of multiset.go. -/
def Of.Union {K : Type} [DecidableEq K] (m o : Of K) : Of K :=
  mapset.Union m o (some in_) (some max)

/-- The method `Of.Intersect` of multiset.go. -/
def Of.Intersect {K : Type} [DecidableEq K] (m o : Of K) : Of K :=
  mapset.Union m o (some in_) (some min)

/-- The method `Of.Add` of multiset.go. -/
def Of.Add {K : Type} [DecidableEq K] (m o : Of K) : Except Error (Of K) :=
  mapset.UnionP m o (some in_) (some sum)

/-- The method `Of.Sub` of multiset.go. -/
def Of.Sub {K : Type} [DecidableEq K] (m o : Of K) : Of K :=
  mapset.Union m o (some in_) (some properSubtraction)

/-- The method `Of.Cardinality` of multiset.go. -/
def Of.Cardinality {K : Type} (m : Of K) : Except Error Nat :=
  m.foldlM (fun n e => sum n e.2) 0

/-- The exact sum of the stored multiplicities. -/
def Of.total {K : Type} (m : Of K) : Nat := (m.map Prod.snd).sum

/-- The function `lt` of multiset.go. -/
def lt (x y : Nat) : Bool := decide (x < y)

/-- The function `lte` of multiset.go. -/
def lte (x y : Nat) : Bool := decide (x ≤ y)

/-- The function `eq` of multiset.go. -/
def eq (x y : Nat) : Bool := decide (x = y)

/-- The Go expression `m[k]` on a multiset that may be nil (`none`): the nil map reads
as the zero value. -/
def Of.multNilable {K : Type} [DecidableEq K] (m : Option (Of K)) (k : K) : Nat :=
  match m with
  | none => 0
  | some l => Of.mult l k

/-- The method `Of.Inc` of multiset.go, on a receiver that may be nil (`none`): the map
after the call, and the value returned or the value the call panics with.  The panic of
`sum` comes before the store `m[k] = v`, and the store panics when `m` is nil. -/
def Of.Inc {K : Type} [DecidableEq K] (m : Option (Of K)) (k : K) (x : Nat) :
    Option (Of K) × Except Error Nat :=
  let y := Of.multNilable m k
  if x == 0 then (m, .ok y)
  else
    match sum y x with
    | .error err => (m, .error err)
    | .ok v =>
      match m with
      | none => (none, .error .NilMapAssignment)
      | some l => (some (mapset.set l k v), .ok v)

/-- The method `Of.Dec` of multiset.go: the map after the call, and the value returned. -/
def Of.Dec {K : Type} [DecidableEq K] (m : Of K) (k : K) (x : Nat) : Of K × Nat :=
  match mapset.get? m k with
  | none => (m, 0)
  | some y =>
    if x == 0 then (m, y)
    else
      let v := properSubtraction y x
      if v == 0 then (mapset.delete m k, 0) else (mapset.set m k v, v)

/-- The method `Of.Dec` of multiset.go on a receiver that may be nil (`none`): on the nil
map `y, ok := m[k]` gives `ok == false` and the call returns 0; on a map it is `Of.Dec`. -/
def Of.DecNilable {K : Type} [DecidableEq K] (m : Option (Of K)) (k : K) (x : Nat) :
    Option (Of K) × Nat :=
  match m with
  | none => (none, 0)
  | some l => (some (Of.Dec l k x).1, (Of.Dec l k x).2)

/-- The negation `-n` of a 64 bit `int`, which wraps around. -/
def negInt (n : Int) : Int := (-n + 2 ^ 63) % 2 ^ 64 - 2 ^ 63

/-- The conversion `uint64(n)` of a 64 bit `int`. -/
def toUint64 (n : Int) : Nat := (n % 2 ^ 64).toNat

/-- The method `Of.IncDec` of multiset.go, for a 64 bit `int`, on a receiver that may be
nil (`none`): the map after the call, and the value returned or the value the call panics
with. -/
def Of.IncDec {K : Type} [DecidableEq K] (m : Option (Of K)) (k : K) (n : Int) :
    Option (Of K) × Except Error Nat :=
  if n > 0 then Of.Inc m k (toUint64 n)
  else if n < 0 then
    let r := Of.DecNilable m k (toUint64 (negInt n))
    (r.1, .ok r.2)
  else (m, .ok (Of.multNilable m k))

/-- The first loop of `Of.rel`, over the entries of `m`: false at the first entry whose
multiplicity is not related to the one in `o`. -/
def relLhs {K : Type} [DecidableEq K] (o : Of K) (rel : Nat → Nat → Bool) : Of K → Bool
  | [] => true
  | (k, mv) :: t => if !rel mv (Of.mult o k) then false else relLhs o rel t

/-- The second loop of `Of.rel`, over the entries of `o`. -/
def relRhs {K : Type} [DecidableEq K] (m : Of K) (rel : Nat → Nat → Bool) : Of K → Bool
  | [] => true
  | (k, ov) :: t => if !rel (Of.mult m k) ov then false else relRhs m rel t

/-- The method `Of.rel` of multiset.go. -/
def Of.rel {K : Type} [DecidableEq K] (m o : Of K) (rel : Nat → Nat → Bool) : Bool :=
  if !relLhs o rel m then false
  else if !relRhs m rel o then false
  else true

/-- The method `Of.Included` of multiset.go. -/
def Of.Included {K : Type} [DecidableEq K] (m o : Of K) : Bool := Of.rel m o lte

/-- The method `Of.ProperIncluded` of multiset.go. -/
def Of.ProperIncluded {K : Type} [DecidableEq K] (m o : Of K) : Bool := Of.rel m o lt

/-- The method `Of.Equal` of multiset.go. -/
def Of.Equal {K : Type} [DecidableEq K] (m o : Of K) : Bool := Of.rel m o eq

/-- The method `Of.Clone` of multiset.go. -/
def Of.Clone {K : Type} [DecidableEq K] (m : Of K) : Of K := mapset.Clone m (some in_)

/-- The method `Of.Purge` of multiset.go: the map after the call. -/
def Of.Purge {K : Type} [DecidableEq K] (m : Of K) : Of K := mapset.Purge m (some in_)

end multiset

/-! ## Entries of a map: lookup, store, delete -/

namespace mapset

theorem get?_eq_none_iff {K V : Type} [DecidableEq K] (m : GoMap K V) (k : K) :
    get? m k = none ↔ k ∉ keys m := by
  induction m with
  | nil => simp [get?, keys]
  | cons e t ih =>
    obtain ⟨k', v⟩ := e
    by_cases h : k' = k
    · simp [get?, keys, h]
    · have h' : ¬ k = k' := fun h'' => h h''.symm
      simpa [get?, keys, h, h'] using ih

theorem get?_eq_some_iff {K V : Type} [DecidableEq K] {m : GoMap K V} (hm : WF m)
    (k : K) (v : V) : get? m k = some v ↔ (k, v) ∈ m := by
  induction m with
  | nil => simp [get?]
  | cons e t ih =>
    obtain ⟨k', v'⟩ := e
    have hnd : k' ∉ keys t ∧ WF t := by simpa [WF, keys] using hm
    by_cases h : k' = k
    · subst h
      have hnot : ∀ w, (k', w) ∉ t := fun w hw =>
        hnd.1 (List.mem_map.2 ⟨(k', w), hw, rfl⟩)
      simp [get?, hnot, eq_comm]
    · have h' : ¬ k = k' := fun h'' => h h''.symm
      simp [get?, h, h', ih hnd.2]

theorem get?_set {K V : Type} [DecidableEq K] (m : GoMap K V) (k : K) (v : V) (k' : K) :
    get? (set m k v) k' = if k = k' then some v else get? m k' := by
  induction m with
  | nil => simp [set, get?]
  | cons e t ih =>
    obtain ⟨k0, v0⟩ := e
    by_cases h : k0 = k
    · subst h
      by_cases h2 : k0 = k' <;> simp [set, get?, h2]
    · by_cases h2 : k0 = k'
      · subst h2
        have h3 : ¬ k = k0 := fun h'' => h h''.symm
        simp [set, get?, h, h3]
      · simp [set, get?, h, h2, ih]

theorem get?_delete {K V : Type} [DecidableEq K] (m : GoMap K V) (k k' : K) :
    get? (delete m k) k' = if k = k' then none else get? m k' := by
  induction m with
  | nil => simp [delete, get?]
  | cons e t ih =>
    obtain ⟨k0, v0⟩ := e
    unfold delete at ih ⊢
    by_cases h : k0 = k
    · have hf : List.filter (fun e => decide (e.1 ≠ k)) ((k0, v0) :: t)
          = List.filter (fun e => decide (e.1 ≠ k)) t := by
        simp [List.filter_cons, h]
      rw [hf, ih]
      subst h
      by_cases h2 : k0 = k' <;> simp [get?, h2]
    · have hf : List.filter (fun e => decide (e.1 ≠ k)) ((k0, v0) :: t)
          = (k0, v0) :: List.filter (fun e => decide (e.1 ≠ k)) t := by
        simp [List.filter_cons, h]
      rw [hf]
      simp only [get?]
      rw [ih]
      by_cases h2 : k0 = k'
      · subst h2
        have h3 : ¬ k = k0 := fun h'' => h h''.symm
        simp [h3]
      · simp [h2]

theorem keys_set {K V : Type} [DecidableEq K] (m : GoMap K V) (k : K) (v : V) :
    keys (set m k v) = if k ∈ keys m then keys m else keys m ++ [k] := by
  induction m with
  | nil => simp [set, keys]
  | cons e t ih =>
    obtain ⟨k0, v0⟩ := e
    by_cases h : k0 = k
    · subst h
      simp [set, keys]
    · have h3 : ¬ k = k0 := fun h'' => h h''.symm
      have ih' : List.map Prod.fst (set t k v)
          = if k ∈ List.map Prod.fst t then List.map Prod.fst t
            else List.map Prod.fst t ++ [k] := ih
      by_cases h4 : k ∈ List.map Prod.fst t
      · simp only [set, keys, h, if_false, List.map_cons, ih', h4, if_true, List.mem_cons,
          or_true]
      · simp only [set, keys, h, if_false, List.map_cons, ih', h4, List.mem_cons, h3, or_self,
          List.cons_append]

theorem WF_nil {K V : Type} : WF ([] : GoMap K V) := by simp [WF, keys]

theorem WF_set {K V : Type} [DecidableEq K] {m : GoMap K V} (hm : WF m) (k : K) (v : V) :
    WF (set m k v) := by
  unfold WF at *
  rw [keys_set]
  by_cases h : k ∈ keys m
  · simpa [h] using hm
  · simp only [h, if_false]
    exact List.Nodup.append hm (List.nodup_singleton k) (by simpa using h)

theorem WF_delete {K V : Type} [DecidableEq K] {m : GoMap K V} (hm : WF m) (k : K) :
    WF (delete m k) := by
  unfold WF keys delete at *
  exact (List.Nodup.sublist (List.Sublist.map _ (List.filter_sublist m)) hm)

theorem get?_perm {K V : Type} [DecidableEq K] {m m' : GoMap K V} (hm : WF m)
    (hp : m.Perm m') (k : K) : get? m k = get? m' k := by
  have hm' : WF m' := by
    unfold WF keys at *
    exact (List.Perm.nodup_iff (List.Perm.map _ hp)).1 hm
  cases h : get? m' k with
  | none =>
    rw [get?_eq_none_iff] at h ⊢
    intro hk
    exact h ((List.Perm.mem_iff (List.Perm.map _ hp)).1 hk)
  | some v =>
    rw [get?_eq_some_iff hm'] at h
    rw [get?_eq_some_iff hm]
    exact (List.Perm.mem_iff hp).2 h

theorem WF_perm {K V : Type} {m m' : GoMap K V} (hm : WF m) (hp : m.Perm m') : WF m' := by
  unfold WF keys at *
  exact (List.Perm.nodup_iff (List.Perm.map _ hp)).1 hm

end mapset

/-! ## Loops over the entries of a map -/

namespace mapset

/-- A loop whose body changes the output only at the key it visits: after the loop, the
output at `k` is the body's effect for the entry stored under `k`, if there is one. -/
theorem get?_foldl_pointwise {K V W : Type} [DecidableEq K]
    (step : GoMap K V → K × W → GoMap K V) (g : K → W → Option V → Option V)
    (hstep : ∀ out e k, get? (step out e) k
      = if e.1 = k then g e.1 e.2 (get? out k) else get? out k)
    (l : GoMap K W) (hl : WF l) (acc : GoMap K V) (k : K) :
    get? (l.foldl step acc) k
      = match get? l k with
        | some w => g k w (get? acc k)
        | none => get? acc k := by
  induction l generalizing acc with
  | nil => simp [get?]
  | cons e t ih =>
    obtain ⟨k0, w0⟩ := e
    have hnd : k0 ∉ keys t ∧ WF t := by simpa [WF, keys] using hl
    rw [List.foldl_cons, ih hnd.2, hstep]
    by_cases h : k0 = k
    · subst h
      have hn : get? t k0 = none := (get?_eq_none_iff t k0).2 hnd.1
      simp [get?, hn]
    · simp [get?, h]

theorem WF_foldl {K V W : Type} (step : GoMap K V → W → GoMap K V)
    (hstep : ∀ out e, WF out → WF (step out e)) (l : List W) (acc : GoMap K V)
    (hacc : WF acc) : WF (l.foldl step acc) := by
  induction l generalizing acc with
  | nil => simpa using hacc
  | cons e t ih => exact ih _ (hstep _ _ hacc)

theorem get?_keepStep {K V : Type} [DecidableEq K] (contains : ContainsFunc V)
    (out : GoMap K V) (e : K × V) (k : K) :
    get? (keepStep contains out e) k
      = if e.1 = k then (fun _ v o => if contains.Check v then some v else o) e.1 e.2
          (get? out k) else get? out k := by
  unfold keepStep
  by_cases hc : contains.Check e.2 <;> by_cases hk : e.1 = k <;> simp [hc, hk, get?_set]

theorem WF_keepStep {K V : Type} [DecidableEq K] (contains : ContainsFunc V)
    (out : GoMap K V) (e : K × V) (h : WF out) : WF (keepStep contains out e) := by
  unfold keepStep
  split
  · exact WF_set h _ _
  · exact h

/-- The first loop of `Union` keeps the qualifying entries. -/
theorem get?_keep {K V : Type} [DecidableEq K] (contains : ContainsFunc V)
    {m : GoMap K V} (hm : WF m) (k : K) :
    get? (m.foldl (keepStep contains) []) k = qual? m contains k := by
  rw [get?_foldl_pointwise _ (fun _ v o => if contains.Check v then some v else o)
    (get?_keepStep contains) m hm]
  unfold qual?
  cases h : get? m k with
  | none => simp [get?]
  | some v => by_cases hc : contains.Check v <;> simp [get?, hc, Option.filter]

theorem get?_unionStep {K V : Type} [DecidableEq K] (contains : ContainsFunc V)
    (merge : MergeFunc V) (out : GoMap K V) (e : K × V) (k : K) :
    get? (unionStep contains merge out e) k
      = if e.1 = k then (fun _ v o => unionAt contains merge v o) e.1 e.2 (get? out k)
        else get? out k := by
  unfold unionStep unionAt
  by_cases hc : contains.Check e.2
  · by_cases hk : e.1 = k
    · subst hk
      cases hg : get? out e.1 with
      | none => simp [hc, get?_set]
      | some L =>
        by_cases hm : contains.Check (merge.Into L e.2) <;>
          simp [hc, hm, get?_set, get?_delete]
    · cases hg : get? out e.1 with
      | none => simp [hc, hk, get?_set]
      | some L =>
        by_cases hm : contains.Check (merge.Into L e.2) <;>
          simp [hc, hk, hm, get?_set, get?_delete]
  · simp [hc]

theorem WF_unionStep {K V : Type} [DecidableEq K] (contains : ContainsFunc V)
    (merge : MergeFunc V) (out : GoMap K V) (e : K × V) (h : WF out) :
    WF (unionStep contains merge out e) := by
  unfold unionStep
  split
  · split
    · exact WF_set h _ _
    · dsimp only
      split
      · exact WF_delete (WF_set h _ _) _
      · exact WF_set h _ _
  · exact h

/-- The value `Union` stores under `k`, from what the operands store under `k`. -/
theorem get?_Union {K V : Type} [DecidableEq K] {lhs rhs : GoMap K V}
    (hl : WF lhs) (hr : WF rhs) (contains : ContainsFunc V) (merge : MergeFunc V) (k : K) :
    get? (Union lhs rhs contains merge) k
      = match qual? lhs contains k, qual? rhs contains k with
        | some a, some b =>
          if contains.Check (merge.Into a b) then some (merge.Into a b) else none
        | some a, none => some a
        | none, some b => some b
        | none, none => none := by
  unfold Union
  rw [get?_foldl_pointwise _ (fun _ v o => unionAt contains merge v o)
    (get?_unionStep contains merge) rhs hr, get?_keep contains hl]
  unfold qual? unionAt
  cases h1 : get? rhs k with
  | none => cases h2 : Option.filter contains.Check (get? lhs k) <;> simp
  | some b =>
    by_cases hc : contains.Check b
    · cases h2 : Option.filter contains.Check (get? lhs k) <;> simp [hc, Option.filter]
    · cases h2 : Option.filter contains.Check (get? lhs k) <;> simp [hc, Option.filter]

theorem WF_Union {K V : Type} [DecidableEq K] (lhs rhs : GoMap K V)
    (contains : ContainsFunc V) (merge : MergeFunc V) :
    WF (Union lhs rhs contains merge) := by
  unfold Union
  exact WF_foldl _ (WF_unionStep contains merge) _ _
    (WF_foldl _ (WF_keepStep contains) _ _ WF_nil)

theorem qual?_perm {K V : Type} [DecidableEq K] {m m' : GoMap K V} (hm : WF m)
    (hp : m.Perm m') (contains : ContainsFunc V) (k : K) :
    qual? m contains k = qual? m' contains k := by
  unfold qual?
  rw [get?_perm hm hp]

end mapset

/-! ## Union and Intersect -/

namespace mapset

/-- C1: for maps `lhs` and `rhs`, a predicate `p` and a merge `f` (either may be nil),
`Union lhs rhs p f` is a map that, for each key `k`: (1) when `k` is stored in both
operands with values that pass `p`, holds `k` iff the merged value passes `p`, and then
with the merged value; (2) when `k` qualifies in exactly one operand, holds `k` with that
operand's value; (3) otherwise does not hold `k`.  Visiting the operands' entries in
another order gives the same mapping. -/
theorem Union_spec {K V : Type} [DecidableEq K] (lhs rhs : GoMap K V)
    (p : ContainsFunc V) (f : MergeFunc V) (hl : WF lhs) (hr : WF rhs) :
    WF (Union lhs rhs p f) ∧
    (∀ k : K,
      (∀ a b, get? lhs k = some a → get? rhs k = some b →
        p.Check a = true → p.Check b = true →
        get? (Union lhs rhs p f) k
          = if p.Check (f.Into a b) then some (f.Into a b) else none) ∧
      (∀ a, qual? lhs p k = some a → qual? rhs p k = none →
        get? (Union lhs rhs p f) k = some a) ∧
      (∀ b, qual? lhs p k = none → qual? rhs p k = some b →
        get? (Union lhs rhs p f) k = some b) ∧
      (qual? lhs p k = none → qual? rhs p k = none →
        get? (Union lhs rhs p f) k = none)) ∧
    (∀ lhs' rhs' : GoMap K V, lhs.Perm lhs' → rhs.Perm rhs' →
      ∀ k, get? (Union lhs' rhs' p f) k = get? (Union lhs rhs p f) k) := by
  refine ⟨WF_Union lhs rhs p f, fun k => ⟨?_, ?_, ?_, ?_⟩, ?_⟩
  · intro a b ha hb hpa hpb
    rw [get?_Union hl hr]
    simp [qual?, ha, hb, hpa, hpb, Option.filter]
  · intro a ha hb
    rw [get?_Union hl hr, ha, hb]
  · intro b ha hb
    rw [get?_Union hl hr, ha, hb]
  · intro ha hb
    rw [get?_Union hl hr, ha, hb]
  · intro lhs' rhs' hpl hpr k
    rw [get?_Union (WF_perm hl hpl) (WF_perm hr hpr), get?_Union hl hr,
      qual?_perm hl hpl, qual?_perm hr hpr]

/-- The scenario of `ExampleUnion`: `Union({a:0,b:1,d:-5}, {b:2,c:1,d:5}, v != 0, +)` is
`{b:3, c:1}`; the key `b` is merged as `Union_spec` says. -/
theorem Union_spec_witness :
    WF [("a", (0 : Int)), ("b", 1), ("d", -5)] ∧ WF [("b", (2 : Int)), ("c", 1), ("d", 5)] ∧
    get? (Union [("a", (0 : Int)), ("b", 1), ("d", -5)] [("b", 2), ("c", 1), ("d", 5)]
      (some (fun v => v != 0)) (some (fun a b => a + b))) "b" = some 3 ∧
    Union [("a", (0 : Int)), ("b", 1), ("d", -5)] [("b", 2), ("c", 1), ("d", 5)]
      (some (fun v => v != 0)) (some (fun a b => a + b)) = [("b", 3), ("c", 1)] :=
  ⟨by decide, by decide,
    ((Union_spec [("a", (0 : Int)), ("b", 1), ("d", -5)] [("b", 2), ("c", 1), ("d", 5)]
      (some (fun v => v != 0)) (some (fun a b => a + b)) (by decide) (by decide)).2.1 "b").1
      1 2 (by decide) (by decide) (by decide) (by decide),
    by decide⟩

theorem get?_intersectStep {K V : Type} [DecidableEq K] (rhs : GoMap K V)
    (contains : ContainsFunc V) (merge : MergeFunc V) (out : GoMap K V) (e : K × V) (k : K) :
    get? (intersectStep rhs contains merge out e) k
      = if e.1 = k then
          (fun k' v o => match get? rhs k' with
            | none => o
            | some vp =>
              if contains.Check v && contains.Check vp && contains.Check (merge.Into v vp)
              then some (merge.Into v vp) else o) e.1 e.2 (get? out k)
        else get? out k := by
  unfold intersectStep
  beta_reduce
  cases hg : get? rhs e.1 with
  | none => simp
  | some vp =>
    by_cases hk : e.1 = k
    · subst hk
      by_cases h1 : contains.Check e.2 <;> by_cases h2 : contains.Check vp <;>
        by_cases h3 : contains.Check (merge.Into e.2 vp) <;>
        simp [h1, h2, h3, get?_set]
    · by_cases h1 : contains.Check e.2 <;> by_cases h2 : contains.Check vp <;>
        by_cases h3 : contains.Check (merge.Into e.2 vp) <;>
        simp [h1, h2, h3, hk, get?_set]

theorem WF_intersectStep {K V : Type} [DecidableEq K] (rhs : GoMap K V)
    (contains : ContainsFunc V) (merge : MergeFunc V) (out : GoMap K V) (e : K × V)
    (h : WF out) : WF (intersectStep rhs contains merge out e) := by
  unfold intersectStep
  split
  · exact h
  · split
    · dsimp only
      split
      · exact WF_set h _ _
      · exact h
    · exact h

/-- The value `Intersect` stores under `k`, from what the operands store under `k`. -/
theorem get?_Intersect {K V : Type} [DecidableEq K] {lhs : GoMap K V} (hl : WF lhs)
    (rhs : GoMap K V) (contains : ContainsFunc V) (merge : MergeFunc V) (k : K) :
    get? (Intersect lhs rhs contains merge) k
      = match get? lhs k, get? rhs k with
        | some a, some b =>
          if contains.Check a && contains.Check b && contains.Check (merge.Into a b)
          then some (merge.Into a b) else none
        | _, _ => none := by
  unfold Intersect
  rw [get?_foldl_pointwise _ (fun k' v o => match get? rhs k' with
            | none => o
            | some vp =>
              if contains.Check v && contains.Check vp && contains.Check (merge.Into v vp)
              then some (merge.Into v vp) else o)
    (get?_intersectStep rhs contains merge) lhs hl]
  cases h1 : get? lhs k with
  | none => simp [get?]
  | some a => cases h2 : get? rhs k <;> simp [get?]

/-- C2: for maps `lhs` and `rhs`, a predicate `p` and a merge `f` (either may be nil),
`Intersect lhs rhs p f` is a map that holds a key `k` with the value `v` iff `k` is
stored in both operands, both stored values pass `p`, the merged value passes `p`, and
`v` is the merged value.  With `p` and `f` nil it holds exactly the keys stored in both
operands, each with the value `lhs` stores. -/
theorem Intersect_spec {K V : Type} [DecidableEq K] (lhs rhs : GoMap K V)
    (p : ContainsFunc V) (f : MergeFunc V) (hl : WF lhs) :
    WF (Intersect lhs rhs p f) ∧
    (∀ (k : K) (v : V), get? (Intersect lhs rhs p f) k = some v ↔
      ∃ a b, get? lhs k = some a ∧ get? rhs k = some b ∧ p.Check a = true ∧
        p.Check b = true ∧ p.Check (f.Into a b) = true ∧ v = f.Into a b) ∧
    (∀ (k : K) (v : V), get? (Intersect lhs rhs none none) k = some v ↔
      get? lhs k = some v ∧ k ∈ keys rhs) := by
  refine ⟨?_, ?_, ?_⟩
  · unfold Intersect
    exact WF_foldl _ (WF_intersectStep rhs p f) _ _ WF_nil
  · intro k v
    rw [get?_Intersect hl]
    cases h1 : get? lhs k with
    | none => simp
    | some a =>
      cases h2 : get? rhs k with
      | none => simp
      | some b =>
        show (if (p.Check a && p.Check b && p.Check (f.Into a b)) = true
          then some (f.Into a b) else none) = some v ↔ _
        constructor
        · intro h
          by_cases hc : (p.Check a && p.Check b && p.Check (f.Into a b)) = true
          · rw [if_pos hc] at h
            simp only [Bool.and_eq_true] at hc
            exact ⟨a, b, rfl, rfl, hc.1.1, hc.1.2, hc.2, (Option.some.inj h).symm⟩
          · rw [if_neg hc] at h
            exact Option.noConfusion h
        · rintro ⟨a', b', ha', hb', h1', h2', h3', hv⟩
          cases ha'
          cases hb'
          subst hv
          have hc : (p.Check a && p.Check b && p.Check (f.Into a b)) = true := by
            simp [h1', h2', h3']
          rw [if_pos hc]
  · intro k v
    rw [get?_Intersect hl]
    cases h1 : get? lhs k with
    | none => simp
    | some a =>
      cases h2 : get? rhs k with
      | none =>
        have := (get?_eq_none_iff rhs k).1 h2
        simp [this]
      | some b =>
        have : k ∈ keys rhs := by
          by_contra hk
          rw [← get?_eq_none_iff, h2] at hk
          exact Option.noConfusion hk
        simp [this, ContainsFunc.Check, MergeFunc.Into]

/-- The scenario of `ExampleIntersect`: `Intersect({a:0,b:1,d:-5}, {b:2,c:1,d:5}, nil, nil)`
is `{b:1, d:-5}`. -/
theorem Intersect_spec_witness :
    WF [("a", (0 : Int)), ("b", 1), ("d", -5)] ∧
    (get? (Intersect [("a", (0 : Int)), ("b", 1), ("d", -5)] [("b", 2), ("c", 1), ("d", 5)]
      none none) "d" = some (-5) ↔
      get? [("a", (0 : Int)), ("b", 1), ("d", -5)] "d" = some (-5) ∧
        "d" ∈ keys [("b", (2 : Int)), ("c", 1), ("d", 5)]) ∧
    Intersect [("a", (0 : Int)), ("b", 1), ("d", -5)] [("b", 2), ("c", 1), ("d", 5)]
      none none = [("b", 1), ("d", -5)] :=
  ⟨by decide,
    (Intersect_spec [("a", (0 : Int)), ("b", 1), ("d", -5)] [("b", 2), ("c", 1), ("d", 5)]
      none none (by decide)).2.2 "d" (-5),
    by decide⟩

end mapset

/-! ## Equal, Subset and ProperSubset -/

namespace mapset

/-- The loop of `subset` succeeds iff every qualifying entry of `lhs` is contained in
`rhs`, and then it has counted every entry of `lhs`, qualifying or not. -/
theorem subsetLoop_eq {K V : Type} [DecidableEq K] (rhs : GoMap K V)
    (contains : ContainsFunc V) (l : GoMap K V) (n : Nat) :
    subsetLoop rhs contains l n
      = if ∀ e ∈ l, contains.Check e.2 = true → Contains rhs e.1 contains = true
        then (n + l.length, true) else (0, false) := by
  induction l generalizing n with
  | nil => simp [subsetLoop]
  | cons e t ih =>
    obtain ⟨k, v⟩ := e
    unfold subsetLoop
    by_cases h : (contains.Check v && !Contains rhs k contains) = true
    · rw [if_pos h]
      have hn : ¬ ∀ e ∈ (k, v) :: t, contains.Check e.2 = true →
          Contains rhs e.1 contains = true := by
        intro hall
        have := hall (k, v) (List.mem_cons_self _ _)
        simp only [Bool.and_eq_true, Bool.not_eq_true'] at h
        rw [this h.1] at h
        exact Bool.noConfusion h.2
      rw [if_neg hn]
    · rw [if_neg h, ih]
      have hkv : contains.Check v = true → Contains rhs k contains = true := by
        intro hc
        simp only [Bool.and_eq_true, Bool.not_eq_true', not_and, Bool.not_eq_false] at h
        exact h hc
      by_cases hall : ∀ e ∈ t, contains.Check e.2 = true → Contains rhs e.1 contains = true
      · have hall' : ∀ e ∈ (k, v) :: t, contains.Check e.2 = true →
            Contains rhs e.1 contains = true := by
          intro e he
          rcases List.mem_cons.1 he with rfl | he
          · exact hkv
          · exact hall e he
        rw [if_pos hall, if_pos hall']
        simp [Nat.add_assoc, Nat.add_comm 1]
      · have hall' : ¬ ∀ e ∈ (k, v) :: t, contains.Check e.2 = true →
            Contains rhs e.1 contains = true := fun h' =>
          hall (fun e he => h' e (List.mem_cons_of_mem _ he))
        rw [if_neg hall, if_neg hall']

/-- C3, the code at the input `lhs = {a:1, b:-1}`, `rhs = {a:1}`, `p = (v >= 0)`: both
maps have the qualifying keys `{a}`, `Subset` holds in both directions and `Len` is 1 on
both sides, but `Equal` returns false, because `subset` counts the entry `b:-1`. -/
theorem Equal_counts_failing_entries :
    Equal [("a", (1 : Int)), ("b", -1)] [("a", 1)] (some (fun v => decide (0 ≤ v))) = false ∧
    Subset [("a", (1 : Int)), ("b", -1)] [("a", 1)] (some (fun v => decide (0 ≤ v))) = true ∧
    Subset [("a", (1 : Int))] [("a", 1), ("b", -1)] (some (fun v => decide (0 ≤ v))) = true ∧
    Len [("a", (1 : Int)), ("b", -1)] (some (fun v => decide (0 ≤ v))) = 1 ∧
    Len [("a", (1 : Int))] (some (fun v => decide (0 ≤ v))) = 1 ∧
    subset [("a", (1 : Int)), ("b", -1)] [("a", 1)] (some (fun v => decide (0 ≤ v)))
      = (2, true) := by
  decide

/-- C4, the code at the input `lhs = {a:-1}`, `rhs = {a:1}`, `p = (v >= 0)`: the
qualifying keys of `lhs` are `{}` and those of `rhs` are `{a}`, `Subset lhs rhs` holds,
`Len` is 0 and 1, `Subset rhs lhs` and `Equal lhs rhs` fail, but `ProperSubset` returns
false, because `subset` counts the entry `a:-1` and `len(rhs)` is compared with it. -/
theorem ProperSubset_counts_failing_entries :
    ProperSubset [("a", (-1 : Int))] [("a", 1)] (some (fun v => decide (0 ≤ v))) = false ∧
    Subset [("a", (-1 : Int))] [("a", 1)] (some (fun v => decide (0 ≤ v))) = true ∧
    Subset [("a", (1 : Int))] [("a", -1)] (some (fun v => decide (0 ≤ v))) = false ∧
    Equal [("a", (-1 : Int))] [("a", 1)] (some (fun v => decide (0 ≤ v))) = false ∧
    Len [("a", (-1 : Int))] (some (fun v => decide (0 ≤ v))) = 0 ∧
    Len [("a", (1 : Int))] (some (fun v => decide (0 ≤ v))) = 1 := by
  decide

/-- C5, the code at the input `b = o = {a:true}`: the method `Bool.ProperSubset` returns
true, the core `ProperSubset` with the predicate of the flag-set returns false, and the
method of the plain set agrees with the core function. -/
theorem Bool_ProperSubset_is_Subset :
    Bool.ProperSubset [("a", true)] [("a", true)] = true ∧
    ProperSubset [("a", true)] [("a", true)] (some containsBool) = false ∧
    Set.ProperSubset [("a", ())] [("a", ())] = false ∧
    ProperSubset [("a", ())] [("a", ())] none = false := by
  decide

/-- Every value that `Union` stores passes the check. -/
theorem Union_check {K V : Type} [DecidableEq K] {lhs rhs : GoMap K V} (hl : WF lhs)
    (hr : WF rhs) (contains : ContainsFunc V) (merge : MergeFunc V) (e : K × V)
    (he : e ∈ Union lhs rhs contains merge) : contains.Check e.2 = true := by
  obtain ⟨k, v⟩ := e
  have hg := (get?_eq_some_iff (WF_Union lhs rhs contains merge) k v).2 he
  rw [get?_Union hl hr] at hg
  have hq : ∀ (m : GoMap K V) a, qual? m contains k = some a → contains.Check a = true := by
    intro m a h
    unfold qual? at h
    cases hm : get? m k with
    | none => rw [hm] at h; exact Option.noConfusion h
    | some w =>
      rw [hm] at h
      by_cases hc : contains.Check w = true
      · simp only [Option.filter, hc, if_true] at h
        cases h
        exact hc
      · simp only [Option.filter, hc] at h
        exact Option.noConfusion h
  cases h1 : qual? lhs contains k with
  | none =>
    cases h2 : qual? rhs contains k with
    | none => rw [h1, h2] at hg; exact Option.noConfusion hg
    | some b =>
      rw [h1, h2] at hg
      cases hg
      exact hq rhs _ h2
  | some a =>
    cases h2 : qual? rhs contains k with
    | none =>
      rw [h1, h2] at hg
      cases hg
      exact hq lhs _ h1
    | some b =>
      rw [h1, h2] at hg
      by_cases hc : contains.Check (merge.Into a b) = true
      · simp only [hc, if_true] at hg
        cases hg
        exact hc
      · simp only [hc] at hg
        exact Option.noConfusion hg

end mapset

/-! ## Multisets: Intersect, Sub and Union -/

namespace multiset

open mapset

/-- C6, the code at the input of `ExampleOf_Intersect`, `m = {a:1, b:0, c:5, e:1}` and
`o = {c:3, d:4, e:9}`: the keys `a` and `d`, stored in one operand only, keep their
multiplicities 1 and 4 in `m.Intersect(o)`, where the minimum is 0. -/
theorem Intersect_keeps_one_sided_keys :
    Of.Intersect [("a", 1), ("b", 0), ("c", 5), ("e", 1)] [("c", 3), ("d", 4), ("e", 9)]
      = [("a", 1), ("c", 3), ("e", 1), ("d", 4)] ∧
    Of.mult (Of.Intersect [("a", 1), ("b", 0), ("c", 5), ("e", 1)]
      [("c", 3), ("d", 4), ("e", 9)]) "a" = 1 ∧
    Min.min (Of.mult [("a", 1), ("b", 0), ("c", 5), ("e", 1)] "a")
      (Of.mult [("c", 3), ("d", 4), ("e", 9)] "a") = 0 := by
  decide

/-- C7, the claim at the input of `ExampleOf_Sub`, `m = {a:1, b:0, c:5}` and
`o = {c:3, d:4}`: the key `d`, stored in `o` only, has multiplicity 4 in `m.Sub(o)`, not
`max(m[d] - o[d], 0)`, which is 0. -/
theorem Sub_keeps_subtrahend_keys :
    (Of.mult (Of.Sub [("a", 1), ("b", 0), ("c", 5)] [("c", 3), ("d", 4)]) "d" : Int)
      ≠ Max.max ((Of.mult [("a", 1), ("b", 0), ("c", 5)] "d" : Int)
          - (Of.mult [("c", 3), ("d", 4)] "d" : Int)) 0 ∧
    Of.Sub [("a", 1), ("b", 0), ("c", 5)] [("c", 3), ("d", 4)]
      = [("a", 1), ("c", 2), ("d", 4)] ∧
    Of.mult (Of.Sub [("a", 1), ("b", 0), ("c", 5)] [("c", 3), ("d", 4)]) "d" = 4 ∧
    Max.max ((Of.mult [("a", 1), ("b", 0), ("c", 5)] "d" : Int)
      - (Of.mult [("c", 3), ("d", 4)] "d" : Int)) 0 = 0 := by
  decide

theorem qual?_in_ {K : Type} [DecidableEq K] (m : Of K) (k : K) :
    qual? m (some in_) k = if Of.mult m k = 0 then none else some (Of.mult m k) := by
  unfold qual? Of.mult
  cases h : get? m k with
  | none => simp [Option.filter]
  | some v =>
    by_cases hv : v = 0
    · simp [Option.filter, ContainsFunc.Check, in_, hv]
    · have : 0 < v := Nat.pos_of_ne_zero hv
      simp [Option.filter, ContainsFunc.Check, in_, hv, this]

/-- C8: for multisets `m` and `o` and every key `k`, the multiplicity of `k` in
`m.Union(o)` is the maximum of its multiplicities in `m` and in `o`, a key that is not
stored having multiplicity 0; and `m.Union(o)` is a map that stores no multiplicity 0. -/
theorem Of_Union_spec {K : Type} [DecidableEq K] (m o : Of K) (hm : mapset.WF m)
    (ho : mapset.WF o) :
    (∀ k, Of.mult (Of.Union m o) k = Max.max (Of.mult m k) (Of.mult o k)) ∧
    mapset.WF (Of.Union m o) ∧ ∀ e ∈ Of.Union m o, e.2 ≠ 0 := by
  refine ⟨?_, WF_Union m o _ _, ?_⟩
  · intro k
    have h := get?_Union hm ho (some in_) (some max) k
    rw [qual?_in_, qual?_in_] at h
    unfold Of.Union
    rw [Of.mult, h]
    by_cases h1 : Of.mult m k = 0 <;> by_cases h2 : Of.mult o k = 0
    · simp [h1, h2]
    · simp [h1, h2]
    · simp [h1, h2]
    · have h3 : max (Of.mult m k) (Of.mult o k) = Max.max (Of.mult m k) (Of.mult o k) := by
        unfold max
        split <;> omega
      have h4 : 0 < Max.max (Of.mult m k) (Of.mult o k) := by omega
      simp [h1, h2, MergeFunc.Into, ContainsFunc.Check, in_, h3, h4]
  · intro e he
    have := Union_check hm ho (some in_) (some max) e he
    simp only [ContainsFunc.Check, in_, decide_eq_true_eq] at this
    omega

/-- The scenario of `ExampleOf_Union`: `{a:1, b:0, c:5, e:1}.Union({c:3, d:4, e:9})` is
`{a:1, c:5, d:4, e:9}`. -/
theorem Of_Union_spec_witness :
    mapset.WF [("a", 1), ("b", 0), ("c", 5), ("e", 1)] ∧
    mapset.WF [("c", 3), ("d", 4), ("e", 9)] ∧
    Of.mult (Of.Union [("a", 1), ("b", 0), ("c", 5), ("e", 1)]
      [("c", 3), ("d", 4), ("e", 9)]) "e"
      = Max.max (Of.mult [("a", 1), ("b", 0), ("c", 5), ("e", 1)] "e")
          (Of.mult [("c", 3), ("d", 4), ("e", 9)] "e") ∧
    Of.Union [("a", 1), ("b", 0), ("c", 5), ("e", 1)] [("c", 3), ("d", 4), ("e", 9)]
      = [("a", 1), ("c", 5), ("e", 9), ("d", 4)] :=
  ⟨by decide, by decide,
    (Of_Union_spec [("a", 1), ("b", 0), ("c", 5), ("e", 1)] [("c", 3), ("d", 4), ("e", 9)]
      (by decide) (by decide)).1 "e",
    by decide⟩

/-- C7, as amended: for multisets `m` and `o` and every key `k`, the multiplicity of `k`
in `m.Sub(o)` is `max(m[k] - o[k], 0)` when `m[k] > 0`, and is `o[k]` when `m[k] = 0`, so
that a key stored in `o` only keeps its multiplicity; a key that is not stored has
multiplicity 0.  `Sub` is a total function, and `m.Sub(o)` is a map that stores no
multiplicity 0. -/
theorem Of_Sub_spec {K : Type} [DecidableEq K] (m o : Of K) (hm : mapset.WF m)
    (ho : mapset.WF o) :
    (∀ k, 0 < Of.mult m k →
      (Of.mult (Of.Sub m o) k : Int)
        = Max.max ((Of.mult m k : Int) - (Of.mult o k : Int)) 0) ∧
    (∀ k, Of.mult m k = 0 → Of.mult (Of.Sub m o) k = Of.mult o k) ∧
    mapset.WF (Of.Sub m o) ∧ ∀ e ∈ Of.Sub m o, e.2 ≠ 0 := by
  have hget : ∀ k, Of.mult (Of.Sub m o) k
      = if Of.mult m k = 0 then Of.mult o k
        else properSubtraction (Of.mult m k) (Of.mult o k) := by
    intro k
    have h := get?_Union hm ho (some in_) (some properSubtraction) k
    rw [qual?_in_, qual?_in_] at h
    unfold Of.Sub
    rw [Of.mult, h]
    by_cases h1 : Of.mult m k = 0 <;> by_cases h2 : Of.mult o k = 0
    · simp [h1, h2]
    · simp [h1, h2]
    · simp [h1, h2, properSubtraction]
    · by_cases h3 : properSubtraction (Of.mult m k) (Of.mult o k) = 0
      · simp [h1, h2, MergeFunc.Into, ContainsFunc.Check, in_, h3]
      · have h4 : 0 < properSubtraction (Of.mult m k) (Of.mult o k) :=
          Nat.pos_of_ne_zero h3
        simp [h1, h2, MergeFunc.Into, ContainsFunc.Check, in_, h4]
  refine ⟨?_, ?_, WF_Union m o _ _, ?_⟩
  · intro k hk
    rw [hget, if_neg (by omega)]
    unfold properSubtraction
    split <;> omega
  · intro k hk
    rw [hget, if_pos hk]
  · intro e he
    have := Union_check hm ho (some in_) (some properSubtraction) e he
    simp only [ContainsFunc.Check, in_, decide_eq_true_eq] at this
    omega

/-- The scenario of `ExampleOf_Sub`: `{a:1, b:0, c:5}.Sub({c:3, d:4})` is
`{a:1, c:2, d:4}` and `{c:3, d:4}.Sub({a:1, b:0, c:5})` is `{a:1, d:4}`. -/
theorem Of_Sub_spec_witness :
    mapset.WF [("a", 1), ("b", 0), ("c", 5)] ∧ mapset.WF [("c", 3), ("d", 4)] ∧
    Of.mult [("a", 1), ("b", 0), ("c", 5)] "d" = 0 ∧
    Of.mult (Of.Sub [("a", 1), ("b", 0), ("c", 5)] [("c", 3), ("d", 4)]) "d"
      = Of.mult [("c", 3), ("d", 4)] "d" ∧
    Of.Sub [("a", 1), ("b", 0), ("c", 5)] [("c", 3), ("d", 4)]
      = [("a", 1), ("c", 2), ("d", 4)] ∧
    Of.Sub [("c", 3), ("d", 4)] [("a", 1), ("b", 0), ("c", 5)] = [("d", 4), ("a", 1)] :=
  ⟨by decide, by decide, by decide,
    (Of_Sub_spec [("a", 1), ("b", 0), ("c", 5)] [("c", 3), ("d", 4)]
      (by decide) (by decide)).2.1 "d" (by decide),
    by decide, by decide⟩

end multiset

/-! ## Union with a merge that may panic -/

namespace mapset

theorem unionStepP_ok {ε K V : Type} [DecidableEq K] (contains : ContainsFunc V)
    (mergeP : MergeFuncP ε V) (merge : MergeFunc V) (out : GoMap K V) (e : K × V)
    (h : contains.Check e.2 = true → ∀ L, get? out e.1 = some L →
      mergeP.Into L e.2 = .ok (merge.Into L e.2)) :
    unionStepP contains mergeP out e = .ok (unionStep contains merge out e) := by
  unfold unionStepP unionStep
  by_cases hc : contains.Check e.2 = true
  · rw [if_pos hc, if_pos hc]
    cases hg : get? out e.1 with
    | none => rfl
    | some L =>
      simp only [h hc L hg]
      split <;> rfl
  · rw [if_neg hc, if_neg hc]

theorem unionStepP_error {ε K V : Type} [DecidableEq K] (contains : ContainsFunc V)
    (mergeP : MergeFuncP ε V) (out : GoMap K V) (e : K × V) (L : V) (err : ε)
    (hc : contains.Check e.2 = true) (hg : get? out e.1 = some L)
    (hm : mergeP.Into L e.2 = .error err) :
    unionStepP contains mergeP out e = .error err := by
  unfold unionStepP
  rw [if_pos hc]
  simp only [hg, hm]

theorem get?_unionStep_ne {K V : Type} [DecidableEq K] (contains : ContainsFunc V)
    (merge : MergeFunc V) (out : GoMap K V) (e : K × V) (k : K) (hk : e.1 ≠ k) :
    get? (unionStep contains merge out e) k = get? out k := by
  rw [get?_unionStep, if_neg hk]

/-- When the merge does not panic on any pair of values that the second loop of `Union`
merges, the loop is the loop run with the function the merge computes. -/
theorem foldlM_unionStepP_ok {ε K V : Type} [DecidableEq K] (contains : ContainsFunc V)
    (mergeP : MergeFuncP ε V) (merge : MergeFunc V) (rhs : GoMap K V) (hr : WF rhs)
    (acc : GoMap K V)
    (h : ∀ e ∈ rhs, contains.Check e.2 = true → ∀ L, get? acc e.1 = some L →
      mergeP.Into L e.2 = .ok (merge.Into L e.2)) :
    rhs.foldlM (unionStepP contains mergeP) acc
      = .ok (rhs.foldl (unionStep contains merge) acc) := by
  induction rhs generalizing acc with
  | nil => rfl
  | cons e t ih =>
    have hnd : e.1 ∉ keys t ∧ WF t := by simpa [WF, keys] using hr
    rw [List.foldlM_cons, unionStepP_ok contains mergeP merge acc e
      (h e (List.mem_cons_self _ _)), List.foldl_cons]
    show List.foldlM (unionStepP contains mergeP) (unionStep contains merge acc e) t = _
    apply ih hnd.2
    intro e' he' hc L hL
    have hne : e.1 ≠ e'.1 := fun heq =>
      hnd.1 (heq ▸ List.mem_map.2 ⟨e', he', rfl⟩)
    rw [get?_unionStep_ne contains merge acc e e'.1 hne] at hL
    exact h e' (List.mem_cons_of_mem _ he') hc L hL

/-- Called with a merge that never panics, `UnionP` is `Union`: the two definitions embed
the same function. -/
theorem UnionP_pure {ε K V : Type} [DecidableEq K] (lhs rhs : GoMap K V) (hr : WF rhs)
    (contains : ContainsFunc V) (merge : MergeFunc V) :
    UnionP lhs rhs contains
        (merge.map (fun f a b => (Except.ok (f a b) : Except ε V)))
      = .ok (Union lhs rhs contains merge) := by
  unfold UnionP Union
  apply foldlM_unionStepP_ok contains _ merge rhs hr
  intro e _ _ L _
  cases merge <;> rfl

/-- When the merge panics with `err` on some pair of values that the second loop of
`Union` merges, and with nothing else on the others, the loop panics with `err`. -/
theorem foldlM_unionStepP_error {ε K V : Type} [DecidableEq K] (contains : ContainsFunc V)
    (mergeP : MergeFuncP ε V) (merge : MergeFunc V) (err : ε) (rhs : GoMap K V)
    (hr : WF rhs) (acc : GoMap K V)
    (hall : ∀ e ∈ rhs, ∀ L, mergeP.Into L e.2 = .ok (merge.Into L e.2) ∨
      mergeP.Into L e.2 = .error err)
    (hex : ∃ e ∈ rhs, contains.Check e.2 = true ∧ ∃ L, get? acc e.1 = some L ∧
      mergeP.Into L e.2 = .error err) :
    rhs.foldlM (unionStepP contains mergeP) acc = .error err := by
  induction rhs generalizing acc with
  | nil =>
    obtain ⟨e, he, _⟩ := hex
    exact absurd he (List.not_mem_nil e)
  | cons e t ih =>
    have hnd : e.1 ∉ keys t ∧ WF t := by simpa [WF, keys] using hr
    rw [List.foldlM_cons]
    by_cases hbad : contains.Check e.2 = true ∧ ∃ L, get? acc e.1 = some L ∧
        mergeP.Into L e.2 = .error err
    · obtain ⟨hc, L, hL, hm⟩ := hbad
      rw [unionStepP_error contains mergeP acc e L err hc hL hm]
      rfl
    · have hok : unionStepP contains mergeP acc e = .ok (unionStep contains merge acc e) := by
        apply unionStepP_ok
        intro hc L hL
        rcases hall e (List.mem_cons_self _ _) L with h1 | h1
        · exact h1
        · exact absurd ⟨hc, L, hL, h1⟩ hbad
      rw [hok]
      show List.foldlM (unionStepP contains mergeP) (unionStep contains merge acc e) t = _
      apply ih hnd.2 _ (fun e' he' => hall e' (List.mem_cons_of_mem _ he'))
      obtain ⟨e', he', hc, L, hL, hm⟩ := hex
      rcases List.mem_cons.1 he' with rfl | he'
      · exact absurd ⟨hc, L, hL, hm⟩ hbad
      · have hne : e.1 ≠ e'.1 := fun heq =>
          hnd.1 (heq ▸ List.mem_map.2 ⟨e', he', rfl⟩)
        refine ⟨e', he', hc, L, ?_, hm⟩
        rw [get?_unionStep_ne contains merge acc e e'.1 hne]
        exact hL

end mapset

/-! ## Multisets: Add and Cardinality -/

namespace multiset

open mapset

theorem sum_ok {a b : Nat} (h : a + b < 2 ^ 64) : sum a b = .ok (a + b) := by
  unfold sum
  have h1 : (a + b) / 2 ^ 64 = 0 := Nat.div_eq_of_lt h
  have h2 : (a + b) % 2 ^ 64 = a + b := Nat.mod_eq_of_lt h
  simp only [h1, h2, ne_eq, not_true_eq_false, if_false]

theorem sum_error {a b : Nat} (h : 2 ^ 64 ≤ a + b) : sum a b = .error .ErrOverflow := by
  unfold sum
  have h1 : (a + b) / 2 ^ 64 ≠ 0 := by
    have : 0 < (a + b) / 2 ^ 64 := Nat.div_pos h (by norm_num)
    omega
  simp only [h1, ne_eq, not_false_eq_true, if_true]

theorem mult_lt {K : Type} [DecidableEq K] {m : Of K} (hm : Of.WF m) (k : K) :
    Of.mult m k < 2 ^ 64 := by
  unfold Of.mult
  cases h : get? m k with
  | none => simp
  | some v => exact hm.2 (k, v) ((get?_eq_some_iff hm.1 k v).1 h)

theorem mult_of_mem {K : Type} [DecidableEq K] {m : Of K} (hm : mapset.WF m) (e : K × Nat)
    (he : e ∈ m) : Of.mult m e.1 = e.2 := by
  unfold Of.mult
  rw [(get?_eq_some_iff hm e.1 e.2).2 he]
  rfl

/-- The multiplicities in `Union m o in (+)`, the map that `Add` returns when no sum
overflows. -/
theorem mult_Union_add {K : Type} [DecidableEq K] {m o : Of K} (hm : mapset.WF m)
    (ho : mapset.WF o) (k : K) :
    Of.mult (mapset.Union m o (some in_) (some (fun a b => a + b))) k
      = Of.mult m k + Of.mult o k := by
  have h := get?_Union hm ho (some in_) (some (fun a b => a + b)) k
  rw [qual?_in_, qual?_in_] at h
  rw [Of.mult, h]
  by_cases h1 : Of.mult m k = 0 <;> by_cases h2 : Of.mult o k = 0
  · simp [h1, h2]
  · simp [h1, h2]
  · simp [h1, h2]
  · have h4 : 0 < Of.mult m k + Of.mult o k := by omega
    have h5 : 0 < Of.mult m k := Nat.pos_of_ne_zero h1
    simp [h1, h2, MergeFunc.Into, ContainsFunc.Check, in_, h5]

theorem get?_keep_in_ {K : Type} [DecidableEq K] {m : Of K} (hm : mapset.WF m) (k : K)
    (L : Nat) (hL : get? (List.foldl (keepStep (some in_)) [] m) k = some L) :
    Of.mult m k = L := by
  rw [get?_keep (some in_) hm, qual?_in_] at hL
  by_cases h0 : Of.mult m k = 0
  · rw [if_pos h0] at hL
    exact Option.noConfusion hL
  · rw [if_neg h0] at hL
    cases hL
    rfl

/-- The method `Add` panics with `ErrOverflow` when some sum overflows. -/
theorem Of_Add_error {K : Type} [DecidableEq K] (m o : Of K) (hm : Of.WF m) (ho : Of.WF o)
    (hex : ∃ k, 2 ^ 64 ≤ Of.mult m k + Of.mult o k) :
    Of.Add m o = .error .ErrOverflow := by
  unfold Of.Add UnionP
  apply foldlM_unionStepP_error (some in_) (some sum) (some (fun a b => a + b))
    Error.ErrOverflow o ho.1
  · intro e _ L
    by_cases h : L + e.2 < 2 ^ 64
    · exact Or.inl (sum_ok h)
    · exact Or.inr (sum_error (Nat.le_of_not_lt h))
  · obtain ⟨k, hk⟩ := hex
    have hmk := mult_lt hm k
    have hok := mult_lt ho k
    have hm0 : Of.mult m k ≠ 0 := by omega
    have ho0 : Of.mult o k ≠ 0 := by omega
    have hgo : get? o k = some (Of.mult o k) := by
      unfold Of.mult at ho0 ⊢
      cases h : get? o k with
      | none => rw [h] at ho0; exact absurd rfl ho0
      | some v => rfl
    refine ⟨(k, Of.mult o k), (get?_eq_some_iff ho.1 k _).1 hgo, ?_, Of.mult m k, ?_, ?_⟩
    · simp only [ContainsFunc.Check, in_, decide_eq_true_eq]
      omega
    · rw [get?_keep (some in_) hm.1, qual?_in_, if_neg hm0]
    · exact sum_error hk

/-- The method `Add` returns the union of the operands under addition when no sum
overflows. -/
theorem Of_Add_ok {K : Type} [DecidableEq K] (m o : Of K) (hm : Of.WF m) (ho : Of.WF o)
    (hex : ¬ ∃ k, 2 ^ 64 ≤ Of.mult m k + Of.mult o k) :
    Of.Add m o = .ok (mapset.Union m o (some in_) (some (fun a b => a + b))) := by
  unfold Of.Add UnionP
  apply foldlM_unionStepP_ok (some in_) (some sum) (some (fun a b => a + b)) o ho.1
  intro e he _ L hL
  have h1 := get?_keep_in_ hm.1 e.1 L hL
  have h2 := mult_of_mem ho.1 e he
  have h3 : ¬ 2 ^ 64 ≤ Of.mult m e.1 + Of.mult o e.1 := fun h => hex ⟨e.1, h⟩
  exact sum_ok (by omega)

/-- C9: for multisets `m` and `o`, `m.Add(o)` panics with `ErrOverflow` iff some key `k`
has `m[k] + o[k] > 2^64 - 1`, a key that is not stored counting as 0; otherwise it
returns a multiset in which every key `k` has the multiplicity `m[k] + o[k]`. -/
theorem Of_Add_spec {K : Type} [DecidableEq K] (m o : Of K) (hm : Of.WF m) (ho : Of.WF o) :
    (Of.Add m o = .error .ErrOverflow ↔ ∃ k, Of.mult m k + Of.mult o k > 2 ^ 64 - 1) ∧
    ((¬ ∃ k, Of.mult m k + Of.mult o k > 2 ^ 64 - 1) →
      ∃ r, Of.Add m o = .ok r ∧ Of.WF r ∧ ∀ k, Of.mult r k = Of.mult m k + Of.mult o k) := by
  have hiff : (∃ k, Of.mult m k + Of.mult o k > 2 ^ 64 - 1)
      ↔ ∃ k, 2 ^ 64 ≤ Of.mult m k + Of.mult o k := by
    constructor <;> rintro ⟨k, hk⟩ <;> exact ⟨k, by omega⟩
  rw [hiff]
  constructor
  · constructor
    · intro herr
      by_contra hex
      rw [Of_Add_ok m o hm ho hex] at herr
      exact Except.noConfusion herr
    · exact Of_Add_error m o hm ho
  · intro hex
    refine ⟨_, Of_Add_ok m o hm ho hex, ⟨WF_Union m o _ _, ?_⟩,
      fun k => mult_Union_add hm.1 ho.1 k⟩
    intro e he
    have h1 := mult_of_mem (WF_Union m o (some in_) (some (fun a b => a + b))) e he
    rw [mult_Union_add hm.1 ho.1] at h1
    have h2 : ¬ 2 ^ 64 ≤ Of.mult m e.1 + Of.mult o e.1 := fun h => hex ⟨e.1, h⟩
    omega

/-- The scenario of `ExampleOf_Add`, `{a:1, b:0, c:5}.Add({c:3, d:4})`, and an overflow:
`{c:5}.Add({c:2^64-5})` panics, as `5 + (2^64 - 5) > 2^64 - 1`. -/
theorem Of_Add_spec_witness :
    Of.WF [("c", 5)] ∧ Of.WF [("c", 2 ^ 64 - 5)] ∧
    (Of.Add [("c", 5)] [("c", 2 ^ 64 - 5)] = .error .ErrOverflow ↔
      ∃ k, Of.mult [("c", 5)] k + Of.mult [("c", 2 ^ 64 - 5)] k > 2 ^ 64 - 1) ∧
    Of.Add [("c", 5)] [("c", 2 ^ 64 - 5)] = .error .ErrOverflow ∧
    Of.Add [("a", 1), ("b", 0), ("c", 5)] [("c", 3), ("d", 4)]
      = .ok [("a", 1), ("c", 8), ("d", 4)] :=
  ⟨by decide, by decide,
    (Of_Add_spec [("c", 5)] [("c", 2 ^ 64 - 5)] (by decide) (by decide)).1,
    rfl, rfl⟩

/-- The loop of `Cardinality`, started at `n`: it returns the exact sum when that is a
`uint64`, and panics with `ErrOverflow` otherwise. -/
theorem foldlM_sum_eq {K : Type} (l : Of K) (n : Nat) (hn : n < 2 ^ 64) :
    l.foldlM (fun n e => sum n e.2) n
      = if n + Of.total l < 2 ^ 64 then .ok (n + Of.total l) else .error .ErrOverflow := by
  induction l generalizing n with
  | nil =>
    have h0 : n + Of.total ([] : Of K) = n := by simp [Of.total]
    rw [h0, if_pos hn]
    rfl
  | cons e t ih =>
    have ht : Of.total (e :: t) = e.2 + Of.total t := by simp [Of.total]
    rw [List.foldlM_cons, ht]
    by_cases h : n + e.2 < 2 ^ 64
    · rw [sum_ok h]
      show List.foldlM (fun n e => sum n e.2) (n + e.2) t = _
      rw [ih (n + e.2) h, Nat.add_assoc]
    · rw [sum_error (Nat.le_of_not_lt h)]
      have h2 : ¬ n + (e.2 + Of.total t) < 2 ^ 64 := by omega
      rw [if_neg h2]
      rfl

/-- The method `Cardinality` returns the exact sum of the stored multiplicities when that
is a `uint64`, and panics with `ErrOverflow` otherwise. -/
theorem Cardinality_eq {K : Type} (m : Of K) :
    Of.Cardinality m
      = if Of.total m < 2 ^ 64 then .ok (Of.total m) else .error .ErrOverflow := by
  unfold Of.Cardinality
  rw [foldlM_sum_eq m 0 (by norm_num), Nat.zero_add]

theorem total_eq_sum {K : Type} [DecidableEq K] (l : Of K) (hl : mapset.WF l)
    (S : Finset K) (hS : ∀ k ∈ keys l, k ∈ S) :
    Of.total l = ∑ k in S, Of.mult l k := by
  induction l generalizing S with
  | nil => simp [Of.total, Of.mult, get?]
  | cons e t ih =>
    obtain ⟨k0, v0⟩ := e
    have hnd : k0 ∉ keys t ∧ mapset.WF t := by simpa [mapset.WF, keys] using hl
    have hk0 : k0 ∈ S := hS k0 (by simp [keys])
    rw [← Finset.add_sum_erase S _ hk0]
    have h1 : Of.mult ((k0, v0) :: t) k0 = v0 := by simp [Of.mult, get?]
    have h2 : ∑ k in S.erase k0, Of.mult ((k0, v0) :: t) k = ∑ k in S.erase k0, Of.mult t k := by
      apply Finset.sum_congr rfl
      intro k hk
      have hne : ¬ k0 = k := fun h => (Finset.ne_of_mem_erase hk) h.symm
      simp [Of.mult, get?, hne]
    have h3 : Of.total t = ∑ k in S.erase k0, Of.mult t k := by
      apply ih hnd.2
      intro k hk
      apply Finset.mem_erase.2
      refine ⟨fun h => hnd.1 (h ▸ hk), hS k ?_⟩
      simp only [keys, List.map_cons, List.mem_cons]
      exact Or.inr hk
    rw [h1, h2, ← h3]
    simp [Of.total]

theorem mult_le_total {K : Type} [DecidableEq K] (l : Of K) (hl : mapset.WF l) (k : K) :
    Of.mult l k ≤ Of.total l := by
  rw [total_eq_sum l hl ((k :: keys l).toFinset) (fun k' hk' => by simp [hk'])]
  exact Finset.single_le_sum (f := fun k => Of.mult l k) (fun _ _ => Nat.zero_le _) (by simp)

/-- The exact sum of the multiplicities of `Union m o in (+)` is the sum of those of the
operands. -/
theorem total_Union_add {K : Type} [DecidableEq K] (m o : Of K) (hm : mapset.WF m)
    (ho : mapset.WF o) :
    Of.total (mapset.Union m o (some in_) (some (fun a b => a + b)))
      = Of.total m + Of.total o := by
  have hu := WF_Union m o (some in_) (some (fun a b => a + b))
  rw [total_eq_sum _ hu ((keys m ++ keys o ++
      keys (mapset.Union m o (some in_) (some (fun a b => a + b)))).toFinset)
      (fun k hk => by simp [hk]),
    total_eq_sum m hm ((keys m ++ keys o ++
      keys (mapset.Union m o (some in_) (some (fun a b => a + b)))).toFinset)
      (fun k hk => by simp [hk]),
    total_eq_sum o ho ((keys m ++ keys o ++
      keys (mapset.Union m o (some in_) (some (fun a b => a + b)))).toFinset)
      (fun k hk => by simp [hk]),
    ← Finset.sum_add_distrib]
  exact Finset.sum_congr rfl (fun k _ => mult_Union_add hm ho k)

/-- C10: for multisets `x` and `y` whose cardinalities `x.Cardinality()` and
`y.Cardinality()` are returned and have an exact sum of at most `2^64 - 1`, `x.Add(y)`
returns a multiset whose `Cardinality()` is returned and is the sum of the two; stored
multiplicities 0 are allowed in `x` and `y`. -/
theorem Add_Cardinality {K : Type} [DecidableEq K] (x y : Of K) (hx : Of.WF x)
    (hy : Of.WF y) (cx cy : Nat) (hcx : Of.Cardinality x = .ok cx)
    (hcy : Of.Cardinality y = .ok cy) (hsum : cx + cy ≤ 2 ^ 64 - 1) :
    ∃ r, Of.Add x y = .ok r ∧ Of.Cardinality r = .ok (cx + cy) := by
  have hcard : ∀ (m : Of K) (c : Nat), Of.Cardinality m = .ok c → Of.total m = c := by
    intro m c h
    rw [Cardinality_eq] at h
    by_cases hlt : Of.total m < 2 ^ 64
    · rw [if_pos hlt] at h
      cases h
      rfl
    · rw [if_neg hlt] at h
      exact Except.noConfusion h
  have htx := hcard x cx hcx
  have hty := hcard y cy hcy
  have hno : ¬ ∃ k, 2 ^ 64 ≤ Of.mult x k + Of.mult y k := by
    rintro ⟨k, hk⟩
    have h1 := mult_le_total x hx.1 k
    have h2 := mult_le_total y hy.1 k
    omega
  refine ⟨_, Of_Add_ok x y hx hy hno, ?_⟩
  rw [Cardinality_eq, total_Union_add x y hx.1 hy.1, htx, hty]
  have hlt : cx + cy < 2 ^ 64 := by omega
  rw [if_pos hlt]

/-- The scenario of `ExampleOf_Add`, with a stored multiplicity 0: the cardinalities of
`{a:1, b:0, c:5}` and `{c:3, d:4}` are 6 and 7, and that of their sum is 13. -/
theorem Add_Cardinality_witness :
    Of.WF [("a", 1), ("b", 0), ("c", 5)] ∧ Of.WF [("c", 3), ("d", 4)] ∧
    Of.Cardinality [("a", 1), ("b", 0), ("c", 5)] = .ok 6 ∧
    Of.Cardinality [("c", 3), ("d", 4)] = .ok 7 ∧ 6 + 7 ≤ 2 ^ 64 - 1 ∧
    ∃ r, Of.Add [("a", 1), ("b", 0), ("c", 5)] [("c", 3), ("d", 4)] = .ok r ∧
      Of.Cardinality r = .ok (6 + 7) :=
  ⟨by decide, by decide, rfl, rfl, by decide,
    Add_Cardinality [("a", 1), ("b", 0), ("c", 5)] [("c", 3), ("d", 4)]
      (by decide) (by decide) 6 7 rfl rfl (by decide)⟩

end multiset

/-! ## Multisets: Inc, Dec and IncDec -/

namespace multiset

open mapset

theorem mult_set {K : Type} [DecidableEq K] (m : Of K) (k : K) (v : Nat) (k' : K) :
    Of.mult (mapset.set m k v) k' = if k = k' then v else Of.mult m k' := by
  unfold Of.mult
  rw [get?_set]
  by_cases h : k = k' <;> simp [h]

/-- C11, the claim at the nil multiset, `k = "a"` and `x = 1`: `m[k] + x` is 1, within
`2^64 - 1`, but `m.Inc(k, x)` does not return 1: the store into the nil map panics with
the run time error, and `m` stays nil. -/
theorem Inc_nil_map_panics :
    Of.multNilable (none : Option (Of String)) "a" + 1 ≤ 2 ^ 64 - 1 ∧
    Of.Inc (none : Option (Of String)) "a" 1 = (none, .error .NilMapAssignment) ∧
    (Of.Inc (none : Option (Of String)) "a" 1).2
      ≠ .ok (Of.multNilable (none : Option (Of String)) "a" + 1) :=
  ⟨by decide, rfl, fun h => Except.noConfusion h⟩

/-- C11, as amended: for a multiset `m` that is not nil, a key `k` and an amount `x`:
when `m[k] + x <= 2^64 - 1`, `m.Inc(k, x)` returns `m[k] + x`, afterwards `k` has that
multiplicity and every other key is stored as before, and when `x == 0` the map is as
before; when `m[k] + x > 2^64 - 1`, `m.Inc(k, x)` panics with `ErrOverflow` and the map
is as before.  On the nil multiset, `Inc(k, 0)` returns 0 and `Inc(k, x)` with a `uint64`
`x > 0` panics with the run time error of a store into a nil map; the multiset stays
nil. -/
theorem Of_Inc_spec {K : Type} [DecidableEq K] (m : Of K) (k : K) (x : Nat)
    (hm : Of.WF m) :
    (Of.mult m k + x ≤ 2 ^ 64 - 1 →
      (Of.Inc (some m) k x).2 = .ok (Of.mult m k + x) ∧
      ∃ m', (Of.Inc (some m) k x).1 = some m' ∧
        Of.WF m' ∧
        Of.mult m' k = Of.mult m k + x ∧
        (∀ k', k' ≠ k → get? m' k' = get? m k') ∧
        (x = 0 → m' = m)) ∧
    (Of.mult m k + x > 2 ^ 64 - 1 →
      Of.Inc (some m) k x = (some m, .error .ErrOverflow)) ∧
    Of.Inc (none : Option (Of K)) k 0 = (none, .ok 0) ∧
    (x ≠ 0 → x < 2 ^ 64 →
      Of.Inc (none : Option (Of K)) k x = (none, .error .NilMapAssignment)) := by
  refine ⟨?_, ?_, ?_, ?_⟩
  · intro hle
    by_cases hx : x = 0
    · subst hx
      exact ⟨by simp [Of.Inc, Of.multNilable], m, by simp [Of.Inc], hm, by simp,
        fun _ _ => rfl, fun _ => rfl⟩
    · have hs : sum (Of.mult m k) x = .ok (Of.mult m k + x) := sum_ok (by omega)
      have hb : (x == 0) = false := by simpa using hx
      have hd : Of.Inc (some m) k x
          = (some (mapset.set m k (Of.mult m k + x)), .ok (Of.mult m k + x)) := by
        simp [Of.Inc, Of.multNilable, hb, hs]
      rw [hd]
      refine ⟨rfl, _, rfl, ⟨WF_set hm.1 _ _, ?_⟩, ?_, ?_, fun h => absurd h hx⟩
      · intro e he
        have h1 := mult_of_mem (WF_set hm.1 k (Of.mult m k + x)) e he
        rw [mult_set] at h1
        by_cases hk : k = e.1
        · rw [if_pos hk] at h1
          omega
        · rw [if_neg hk] at h1
          have := mult_lt hm e.1
          omega
      · rw [mult_set, if_pos rfl]
      · intro k' hk'
        rw [get?_set, if_neg (fun h => hk' h.symm)]
  · intro hgt
    have hx : x ≠ 0 := by
      intro h
      have := mult_lt hm k
      omega
    have hs : sum (Of.mult m k) x = .error .ErrOverflow := sum_error (by omega)
    have hb : (x == 0) = false := by simpa using hx
    simp [Of.Inc, Of.multNilable, hb, hs]
  · simp [Of.Inc, Of.multNilable]
  · intro hx hlt
    have hs : sum 0 x = .ok x := by
      have := sum_ok (a := 0) (b := x) (by omega)
      simpa using this
    have hb : (x == 0) = false := by simpa using hx
    simp [Of.Inc, Of.multNilable, hb, hs]

/-- The scenario of `TestInc`: `m[0] == 1` and `x == MaxUint64` panics and leaves `m` as
it was; and `m.Inc(3, 1)` stores the new key 3. -/
theorem Of_Inc_spec_witness :
    Of.WF [(0, 1), (1, 2)] ∧ Of.mult [(0, 1), (1, 2)] 0 + (2 ^ 64 - 1) > 2 ^ 64 - 1 ∧
    Of.Inc (some [(0, 1), (1, 2)]) 0 (2 ^ 64 - 1)
      = (some [(0, 1), (1, 2)], .error .ErrOverflow) ∧
    Of.Inc (some [(0, 1), (1, 2)]) 3 1 = (some [(0, 1), (1, 2), (3, 1)], .ok 1) :=
  ⟨by decide, by decide,
    (Of_Inc_spec [(0, 1), (1, 2)] 0 (2 ^ 64 - 1) (by decide)).2.1 (by decide), rfl⟩

/-- C12: for a multiset `m`, a key `k` and an amount `x`, `m.Dec(k, x)` returns
`max(m[k] - x, 0)`.  When `k` is not stored or `x == 0` the map is as before; otherwise
`k` is deleted when the result is 0 and stored with the result when it is positive.
Every other key is stored as before, and after a call with `x > 0` the key `k` is not
stored with multiplicity 0. -/
theorem Of_Dec_spec {K : Type} [DecidableEq K] (m : Of K) (k : K) (x : Nat)
    (hm : mapset.WF m) :
    ((Of.Dec m k x).2 : Int) = Max.max ((Of.mult m k : Int) - (x : Int)) 0 ∧
    ((get? m k = none ∨ x = 0) → (Of.Dec m k x).1 = m) ∧
    (get? m k ≠ none → x ≠ 0 →
      ((Of.Dec m k x).2 = 0 → get? (Of.Dec m k x).1 k = none) ∧
      (0 < (Of.Dec m k x).2 → get? (Of.Dec m k x).1 k = some (Of.Dec m k x).2)) ∧
    (∀ k', k' ≠ k → get? (Of.Dec m k x).1 k' = get? m k') ∧
    (x ≠ 0 → get? (Of.Dec m k x).1 k ≠ some 0) ∧
    mapset.WF (Of.Dec m k x).1 := by
  cases hg : get? m k with
  | none =>
    have hd : Of.Dec m k x = (m, 0) := by simp [Of.Dec, hg]
    have hmu : Of.mult m k = 0 := by simp [Of.mult, hg]
    rw [hd, hmu]
    refine ⟨by simp, fun _ => rfl, fun h => absurd rfl h, fun _ _ => rfl, ?_, hm⟩
    intro _
    simp [hg]
  | some y =>
    have hmu : Of.mult m k = y := by simp [Of.mult, hg]
    by_cases hx : x = 0
    · subst hx
      have hd : Of.Dec m k 0 = (m, y) := by simp [Of.Dec, hg]
      rw [hd, hmu]
      refine ⟨by simp, fun _ => rfl, fun _ h => absurd rfl h, fun _ _ => rfl,
        fun h => absurd rfl h, hm⟩
    · have hb : (x == 0) = false := by simpa using hx
      by_cases hv : y ≤ x
      · have hp : properSubtraction y x = 0 := by
          unfold properSubtraction
          split <;> omega
        have hd : Of.Dec m k x = (mapset.delete m k, 0) := by simp [Of.Dec, hg, hb, hp]
        rw [hd, hmu]
        refine ⟨?_, ?_, ?_, ?_, ?_, WF_delete hm k⟩
        · simp only [Nat.cast_zero]
          omega
        · rintro (h | h)
          · exact Option.noConfusion h
          · exact absurd h hx
        · intro _ _
          refine ⟨fun _ => ?_, fun h => absurd h (Nat.lt_irrefl 0)⟩
          rw [get?_delete, if_pos rfl]
        · intro k' hk'
          rw [get?_delete, if_neg (fun h => hk' h.symm)]
        · intro _
          rw [get?_delete, if_pos rfl]
          exact fun h => Option.noConfusion h
      · have hp : properSubtraction y x = y - x := by
          unfold properSubtraction
          split <;> omega
        have hne : ¬ y - x = 0 := by omega
        have hd : Of.Dec m k x = (mapset.set m k (y - x), y - x) := by
          simp [Of.Dec, hg, hb, hp, hne]
        rw [hd, hmu]
        refine ⟨?_, ?_, ?_, ?_, ?_, WF_set hm k _⟩
        · show ((y - x : Nat) : Int) = _
          omega
        · rintro (h | h)
          · exact Option.noConfusion h
          · exact absurd h hx
        · intro _ _
          refine ⟨fun h => absurd h hne, fun _ => ?_⟩
          rw [get?_set, if_pos rfl]
        · intro k' hk'
          rw [get?_set, if_neg (fun h => hk' h.symm)]
        · intro _
          rw [get?_set, if_pos rfl]
          intro h
          exact hne (Option.some.inj h)

/-- The scenario of `TestDec`: with `m[0] == 2`, `m.Dec(0, 1)` returns 1 and stores it,
and `m.Dec(0, 2)` returns 0 and deletes the key. -/
theorem Of_Dec_spec_witness :
    mapset.WF [(0, 2)] ∧
    ((Of.Dec [(0, 2)] 0 1).2 : Int) = Max.max ((Of.mult [(0, 2)] 0 : Int) - ((1 : Nat) : Int)) 0 ∧
    Of.Dec [(0, 2)] 0 1 = ([(0, 1)], 1) ∧ Of.Dec [(0, 2)] 0 2 = ([], 0) ∧
    Of.Dec ([] : Of Nat) 0 0 = ([], 0) :=
  ⟨by decide, (Of_Dec_spec [(0, 2)] 0 1 (by decide)).1, by decide, by decide, by decide⟩

end multiset

namespace multiset

open mapset

theorem toUint64_pos {n : Int} (h0 : 0 < n) (h1 : n < 2 ^ 63) : toUint64 n = n.toNat := by
  unfold toUint64
  have : n % 2 ^ 64 = n := Int.emod_eq_of_lt (by omega) (by omega)
  rw [this]

theorem toUint64_negInt {n : Int} (h0 : n < 0) (h1 : -2 ^ 63 ≤ n) :
    toUint64 (negInt n) = n.natAbs := by
  unfold toUint64 negInt
  omega

/-- C13: for a multiset `m` (nil or not), a key `k` and a 64 bit `int` `n`: when `n > 0`,
`m.IncDec(k, n)` is `m.Inc(k, n)`; when `n < 0` it is `m.Dec(k, |n|)` with the exact
absolute value of `n`, also for `n = -2^63`; when `n == 0` it returns `m[k]` and leaves
the map as it was. -/
theorem Of_IncDec_spec {K : Type} [DecidableEq K] (m : Option (Of K)) (k : K) (n : Int)
    (hlo : -2 ^ 63 ≤ n) (hhi : n < 2 ^ 63) :
    (0 < n → Of.IncDec m k n = Of.Inc m k n.toNat) ∧
    (n < 0 → Of.IncDec m k n
      = ((Of.DecNilable m k n.natAbs).1, .ok (Of.DecNilable m k n.natAbs).2)) ∧
    (n < 0 → ∀ l : Of K, Of.IncDec (some l) k n
      = (some (Of.Dec l k n.natAbs).1, .ok (Of.Dec l k n.natAbs).2)) ∧
    (n = 0 → Of.IncDec m k n = (m, .ok (Of.multNilable m k))) := by
  refine ⟨?_, ?_, ?_, ?_⟩
  · intro h
    unfold Of.IncDec
    rw [if_pos h, toUint64_pos h hhi]
  · intro h
    have h' : ¬ n > 0 := by omega
    unfold Of.IncDec
    rw [if_neg h', if_pos h, toUint64_negInt h hlo]
  · intro h l
    have h' : ¬ n > 0 := by omega
    unfold Of.IncDec
    rw [if_neg h', if_pos h, toUint64_negInt h hlo]
    rfl
  · intro h
    subst h
    simp [Of.IncDec]

/-- The most negative delta: `m.IncDec(k, -2^63)` is `m.Dec(k, 2^63)`. -/
theorem Of_IncDec_spec_witness :
    (-2 ^ 63 : Int) ≤ -2 ^ 63 ∧ (-2 ^ 63 : Int) < 2 ^ 63 ∧ (-2 ^ 63 : Int) < 0 ∧
    (-2 ^ 63 : Int).natAbs = 2 ^ 63 ∧
    Of.IncDec (some [("a", 2 ^ 63 + 5)]) "a" (-2 ^ 63)
      = (some (Of.Dec [("a", 2 ^ 63 + 5)] "a" (-2 ^ 63 : Int).natAbs).1,
          .ok (Of.Dec [("a", 2 ^ 63 + 5)] "a" (-2 ^ 63 : Int).natAbs).2) ∧
    Of.IncDec (some [("a", 2 ^ 63 + 5)]) "a" (-2 ^ 63) = (some [("a", 5)], .ok 5) :=
  ⟨by decide, by decide, by decide, by decide,
    (Of_IncDec_spec (some [("a", 2 ^ 63 + 5)]) "a" (-2 ^ 63) (by decide) (by decide)).2.2.1
      (by decide) [("a", 2 ^ 63 + 5)],
    rfl⟩

end multiset

/-! ## Multisets: Included, ProperIncluded, Equal and Cardinality -/

namespace multiset

open mapset

theorem relLhs_iff {K : Type} [DecidableEq K] (o : Of K) (rel : Nat → Nat → Bool)
    (l : Of K) : relLhs o rel l = true ↔ ∀ e ∈ l, rel e.2 (Of.mult o e.1) = true := by
  induction l with
  | nil => simp [relLhs]
  | cons e t ih =>
    obtain ⟨k, mv⟩ := e
    unfold relLhs
    by_cases h : rel mv (Of.mult o k) = true
    · simp [h, ih]
    · simp [h]

theorem relRhs_iff {K : Type} [DecidableEq K] (m : Of K) (rel : Nat → Nat → Bool)
    (l : Of K) : relRhs m rel l = true ↔ ∀ e ∈ l, rel (Of.mult m e.1) e.2 = true := by
  induction l with
  | nil => simp [relRhs]
  | cons e t ih =>
    obtain ⟨k, ov⟩ := e
    unfold relRhs
    by_cases h : rel (Of.mult m k) ov = true
    · simp [h, ih]
    · simp [h]

/-- The method `rel` holds iff the multiplicities of every key stored in either operand
are related. -/
theorem rel_iff {K : Type} [DecidableEq K] {m o : Of K} (hm : mapset.WF m)
    (ho : mapset.WF o) (rel : Nat → Nat → Bool) :
    Of.rel m o rel = true
      ↔ ∀ k, k ∈ keys m ∨ k ∈ keys o → rel (Of.mult m k) (Of.mult o k) = true := by
  have h1 : Of.rel m o rel = true ↔ relLhs o rel m = true ∧ relRhs m rel o = true := by
    unfold Of.rel
    by_cases ha : relLhs o rel m = true <;> by_cases hb : relRhs m rel o = true <;>
      simp [ha, hb]
  rw [h1, relLhs_iff, relRhs_iff]
  constructor
  · rintro ⟨hl, hr⟩ k (hk | hk)
    · obtain ⟨e, he, rfl⟩ := List.mem_map.1 hk
      have := hl e he
      rwa [← mult_of_mem hm e he] at this
    · obtain ⟨e, he, rfl⟩ := List.mem_map.1 hk
      have := hr e he
      rwa [← mult_of_mem ho e he] at this
  · intro h
    constructor
    · intro e he
      have := h e.1 (Or.inl (List.mem_map.2 ⟨e, he, rfl⟩))
      rwa [mult_of_mem hm e he] at this
    · intro e he
      have := h e.1 (Or.inr (List.mem_map.2 ⟨e, he, rfl⟩))
      rwa [mult_of_mem ho e he] at this

theorem mult_of_not_mem {K : Type} [DecidableEq K] (m : Of K) (k : K) (h : k ∉ keys m) :
    Of.mult m k = 0 := by
  unfold Of.mult
  rw [(get?_eq_none_iff m k).2 h]
  rfl

/-- For a relation that holds of `0` and `0`, the method `rel` holds iff the
multiplicities of every key of the key type are related. -/
theorem rel_iff_all {K : Type} [DecidableEq K] {m o : Of K} (hm : mapset.WF m)
    (ho : mapset.WF o) (rel : Nat → Nat → Bool) (h0 : rel 0 0 = true) :
    Of.rel m o rel = true ↔ ∀ k, rel (Of.mult m k) (Of.mult o k) = true := by
  rw [rel_iff hm ho]
  constructor
  · intro h k
    by_cases hk : k ∈ keys m ∨ k ∈ keys o
    · exact h k hk
    · rw [mult_of_not_mem m k (fun h' => hk (Or.inl h')),
        mult_of_not_mem o k (fun h' => hk (Or.inr h'))]
      exact h0
  · intro h k _
    exact h k

/-- C14: for multisets `m` and `o`, `m.Included(o)` is true iff `m[k] <= o[k]` for every
key `k` stored in `m` or in `o`, a key that is not stored having multiplicity 0; that is,
iff `m[k] <= o[k]` for every key of the key type. -/
theorem Of_Included_spec {K : Type} [DecidableEq K] (m o : Of K) (hm : mapset.WF m)
    (ho : mapset.WF o) :
    (Of.Included m o = true
      ↔ ∀ k, k ∈ keys m ∨ k ∈ keys o → Of.mult m k ≤ Of.mult o k) ∧
    (Of.Included m o = true ↔ ∀ k, Of.mult m k ≤ Of.mult o k) := by
  unfold Of.Included
  constructor
  · rw [rel_iff hm ho lte]
    simp [lte]
  · rw [rel_iff_all hm ho lte (by decide)]
    simp [lte]

/-- The scenario of `ExampleOf_Included`: `{a:1, b:2, c:3}` is included in
`{a:1, b:3, c:4}`, but not conversely, and not in `{d:0, e:9, f:2}`. -/
theorem Of_Included_spec_witness :
    mapset.WF [("a", 1), ("b", 2), ("c", 3)] ∧ mapset.WF [("a", 1), ("b", 3), ("c", 4)] ∧
    (Of.Included [("a", 1), ("b", 2), ("c", 3)] [("a", 1), ("b", 3), ("c", 4)] = true
      ↔ ∀ k, Of.mult [("a", 1), ("b", 2), ("c", 3)] k
          ≤ Of.mult [("a", 1), ("b", 3), ("c", 4)] k) ∧
    Of.Included [("a", 1), ("b", 2), ("c", 3)] [("a", 1), ("b", 3), ("c", 4)] = true ∧
    Of.Included [("a", 1), ("b", 3), ("c", 4)] [("a", 1), ("b", 2), ("c", 3)] = false ∧
    Of.Included [("a", 1), ("b", 2), ("c", 3)] [("d", 0), ("e", 9), ("f", 2)] = false :=
  ⟨by decide, by decide,
    (Of_Included_spec [("a", 1), ("b", 2), ("c", 3)] [("a", 1), ("b", 3), ("c", 4)]
      (by decide) (by decide)).2,
    by decide, by decide, by decide⟩

theorem mult_Clone {K : Type} [DecidableEq K] {m : Of K} (hm : mapset.WF m) (k : K) :
    Of.mult (Of.Clone m) k = Of.mult m k := by
  unfold Of.Clone Clone
  rw [Of.mult, get?_keep (some in_) hm, qual?_in_]
  by_cases h : Of.mult m k = 0 <;> simp [h]

theorem WF_Clone {K V : Type} [DecidableEq K] (m : GoMap K V) (contains : ContainsFunc V) :
    mapset.WF (Clone m contains) := by
  unfold Clone
  exact WF_foldl _ (WF_keepStep contains) _ _ WF_nil

/-- The comparisons `Included` and `Equal` do not see stored multiplicities 0: they
return the same on the clones, which store none. -/
theorem Included_Equal_Clone {K : Type} [DecidableEq K] {m o : Of K} (hm : mapset.WF m)
    (ho : mapset.WF o) :
    Of.Included (Of.Clone m) (Of.Clone o) = Of.Included m o ∧
    Of.Equal (Of.Clone m) (Of.Clone o) = Of.Equal m o := by
  have key : ∀ rel : Nat → Nat → Bool, rel 0 0 = true →
      Of.rel (Of.Clone m) (Of.Clone o) rel = Of.rel m o rel := by
    intro rel h0
    have hcm : mapset.WF (Of.Clone m) := WF_Clone m (some in_)
    have hco : mapset.WF (Of.Clone o) := WF_Clone o (some in_)
    rw [Bool.eq_iff_iff, rel_iff_all hcm hco rel h0, rel_iff_all hm ho rel h0]
    simp only [mult_Clone hm, mult_Clone ho]
  exact ⟨key lte (by decide), key eq (by decide)⟩

/-- C15, the code at the input `m = {a:0}`, `o = {}`: `m.ProperIncluded(o)` is false,
because the loop of `rel` visits the stored entry `a:0` and `0 < 0` fails; on the clones
and on the purged maps, which are both empty, it is true.  `Included` and `Equal` agree
on the two pairs. -/
theorem ProperIncluded_sees_stored_zero :
    Of.ProperIncluded [("a", 0)] ([] : Of String) = false ∧
    Of.ProperIncluded (Of.Clone [("a", 0)]) (Of.Clone ([] : Of String)) = true ∧
    Of.ProperIncluded (Of.Purge [("a", 0)]) (Of.Purge ([] : Of String)) = true ∧
    Of.Purge [("a", 0)] = ([] : Of String) ∧ Of.Clone [("a", 0)] = ([] : Of String) ∧
    Of.Included [("a", 0)] ([] : Of String) = true ∧
    Of.Included (Of.Clone [("a", 0)]) (Of.Clone ([] : Of String)) = true ∧
    Of.Equal [("a", 0)] ([] : Of String) = true ∧
    Of.Equal (Of.Clone [("a", 0)]) (Of.Clone ([] : Of String)) = true := by
  decide

/-- C16: for a multiset `m`, `m.Cardinality()` panics with `ErrOverflow` iff the exact
sum of the stored multiplicities exceeds `2^64 - 1`, and otherwise returns that sum;
visiting the entries in another order gives the same outcome. -/
theorem Of_Cardinality_spec {K : Type} (m : Of K) :
    (Of.Cardinality m = .error .ErrOverflow ↔ Of.total m > 2 ^ 64 - 1) ∧
    (Of.total m ≤ 2 ^ 64 - 1 → Of.Cardinality m = .ok (Of.total m)) ∧
    (∀ m' : Of K, m.Perm m' → Of.Cardinality m' = Of.Cardinality m) := by
  refine ⟨?_, ?_, ?_⟩
  · rw [Cardinality_eq]
    by_cases h : Of.total m < 2 ^ 64
    · rw [if_pos h]
      constructor
      · intro h'
        exact Except.noConfusion h'
      · intro h'
        omega
    · rw [if_neg h]
      constructor
      · intro _
        omega
      · intro _
        rfl
  · intro h
    rw [Cardinality_eq, if_pos (by omega)]
  · intro m' hp
    have ht : Of.total m' = Of.total m := by
      unfold Of.total
      exact (List.Perm.sum_eq (List.Perm.map _ hp)).symm
    rw [Cardinality_eq, Cardinality_eq, ht]

/-- The scenario of `ExampleOf_Cardinality`: the cardinality of `{a:1, b:0, c:5}` is 6;
and the cardinality of `{a:2^64-1, b:1}` overflows. -/
theorem Of_Cardinality_spec_witness :
    Of.total [("a", 1), ("b", 0), ("c", 5)] ≤ 2 ^ 64 - 1 ∧
    Of.Cardinality [("a", 1), ("b", 0), ("c", 5)]
      = .ok (Of.total [("a", 1), ("b", 0), ("c", 5)]) ∧
    Of.Cardinality [("a", 1), ("b", 0), ("c", 5)] = .ok 6 ∧
    Of.Cardinality [("a", 2 ^ 64 - 1), ("b", 1)] = .error .ErrOverflow :=
  ⟨by decide,
    (Of_Cardinality_spec [("a", 1), ("b", 0), ("c", 5)]).2.1 (by decide), rfl, rfl⟩

end multiset

/-! ## Diff and SymDiff -/

namespace mapset

theorem qual?_eq_some_iff {K V : Type} [DecidableEq K] (m : GoMap K V)
    (contains : ContainsFunc V) (k : K) (v : V) :
    qual? m contains k = some v ↔ get? m k = some v ∧ contains.Check v = true := by
  unfold qual?
  cases h : get? m k with
  | none => simp [Option.filter]
  | some w =>
    by_cases hc : contains.Check w = true
    · simp only [Option.filter, hc, if_true, Option.some.injEq]
      constructor
      · rintro rfl
        exact ⟨rfl, hc⟩
      · exact fun h' => h'.1
    · simp only [Option.filter, hc, Option.some.injEq]
      constructor
      · intro h'
        exact Option.noConfusion h'
      · rintro ⟨rfl, h'⟩
        exact absurd h' hc

theorem Contains_eq {K V : Type} [DecidableEq K] (m : GoMap K V) (k : K)
    (contains : ContainsFunc V) : Contains m k contains = (qual? m contains k).isSome := by
  unfold Contains qual?
  cases h : get? m k with
  | none => rfl
  | some w => by_cases hc : contains.Check w = true <;> simp [Option.filter, hc]

theorem Contains_eq_false_iff {K V : Type} [DecidableEq K] (m : GoMap K V) (k : K)
    (contains : ContainsFunc V) : Contains m k contains = false ↔ qual? m contains k = none := by
  rw [Contains_eq]
  cases qual? m contains k <;> simp

theorem get?_diffStep {K V : Type} [DecidableEq K] (other : GoMap K V)
    (contains : ContainsFunc V) (out : GoMap K V) (e : K × V) (k : K) :
    get? (diffStep other contains out e) k
      = if e.1 = k then
          (fun k' v o => if contains.Check v && !Contains other k' contains then some v else o)
            e.1 e.2 (get? out k)
        else get? out k := by
  unfold diffStep
  beta_reduce
  by_cases hc : (contains.Check e.2 && !Contains other e.1 contains) = true
  · rw [if_pos hc, if_pos hc, get?_set]
  · rw [if_neg hc, if_neg hc, ite_self]

theorem WF_diffStep {K V : Type} [DecidableEq K] (other : GoMap K V)
    (contains : ContainsFunc V) (out : GoMap K V) (e : K × V) (h : WF out) :
    WF (diffStep other contains out e) := by
  unfold diffStep
  split
  · exact WF_set h _ _
  · exact h

theorem WF_Diff {K V : Type} [DecidableEq K] (lhs rhs : GoMap K V)
    (contains : ContainsFunc V) : WF (Diff lhs rhs contains) := by
  unfold Diff
  exact WF_foldl _ (WF_diffStep rhs contains) _ _ WF_nil

/-- The entries of `Diff`: those of `lhs` that qualify and whose key does not qualify in
`rhs`. -/
theorem get?_Diff_iff {K V : Type} [DecidableEq K] {lhs : GoMap K V} (hl : WF lhs)
    (rhs : GoMap K V) (contains : ContainsFunc V) (k : K) (v : V) :
    get? (Diff lhs rhs contains) k = some v
      ↔ qual? lhs contains k = some v ∧ qual? rhs contains k = none := by
  unfold Diff
  rw [get?_foldl_pointwise _
    (fun k' v o => if contains.Check v && !Contains rhs k' contains then some v else o)
    (get?_diffStep rhs contains) lhs hl, qual?_eq_some_iff, ← Contains_eq_false_iff]
  cases h : get? lhs k with
  | none => simp [get?]
  | some w =>
    dsimp only
    by_cases hc : (contains.Check w && !Contains rhs k contains) = true
    · rw [if_pos hc]
      simp only [Bool.and_eq_true, Bool.not_eq_true'] at hc
      constructor
      · intro h'
        cases h'
        exact ⟨⟨rfl, hc.1⟩, hc.2⟩
      · exact fun h' => h'.1.1
    · rw [if_neg hc]
      constructor
      · intro h'
        exact Option.noConfusion h'
      · rintro ⟨⟨h1, h2⟩, h3⟩
        cases h1
        exact absurd (by simp [h2, h3]) hc

/-- The entries of `SymDiff`: those that qualify in exactly one operand. -/
theorem get?_SymDiff_iff {K V : Type} [DecidableEq K] {lhs rhs : GoMap K V} (hl : WF lhs)
    (hr : WF rhs) (contains : ContainsFunc V) (k : K) (v : V) :
    get? (SymDiff lhs rhs contains) k = some v
      ↔ (qual? lhs contains k = some v ∧ qual? rhs contains k = none) ∨
        (qual? rhs contains k = some v ∧ qual? lhs contains k = none) := by
  have hD := get?_Diff_iff hl rhs contains k
  unfold Diff at hD
  unfold SymDiff
  rw [get?_foldl_pointwise _
    (fun k' v o => if contains.Check v && !Contains lhs k' contains then some v else o)
    (get?_diffStep lhs contains) rhs hr]
  cases h : get? rhs k with
  | none =>
    have hq : qual? rhs contains k = none := by simp [qual?, h]
    simp only [hD, hq, and_true]
    simp
  | some w =>
    dsimp only
    by_cases hc : (contains.Check w && !Contains lhs k contains) = true
    · rw [if_pos hc]
      simp only [Bool.and_eq_true, Bool.not_eq_true', Contains_eq_false_iff] at hc
      have hq : qual? rhs contains k = some w := (qual?_eq_some_iff _ _ _ _).2 ⟨h, hc.1⟩
      simp [hq, hc.2]
    · rw [if_neg hc, hD]
      constructor
      · exact fun h' => Or.inl h'
      · rintro (h' | ⟨h1, h2⟩)
        · exact h'
        · exfalso
          apply hc
          rw [qual?_eq_some_iff, h] at h1
          have hw : w = v := Option.some.inj h1.1
          subst hw
          simp only [Bool.and_eq_true, Bool.not_eq_true', Contains_eq_false_iff]
          exact ⟨h1.2, h2⟩

theorem mem_keys_iff {K V : Type} [DecidableEq K] (m : GoMap K V) (k : K) :
    k ∈ keys m ↔ ∃ v, get? m k = some v := by
  have h := get?_eq_none_iff m k
  cases hg : get? m k with
  | none =>
    rw [hg] at h
    simp [h.1 rfl]
  | some v =>
    rw [hg] at h
    have : k ∈ keys m := by
      by_contra hk
      exact Option.noConfusion (h.2 hk)
    simp [this]

/-- C17: for maps `lhs` and `rhs` and a predicate `p` (which may be nil),
`Diff lhs rhs p` and `Diff rhs lhs p` have no key in common and `SymDiff lhs rhs p` is
their union as a mapping (also the `Union` of ops.go of the two, with any merge); a key
is in `SymDiff lhs rhs p` iff it qualifies in exactly one operand, and it is stored with
that operand's value. -/
theorem SymDiff_spec {K V : Type} [DecidableEq K] (lhs rhs : GoMap K V)
    (p : ContainsFunc V) (hl : WF lhs) (hr : WF rhs) :
    (∀ k, ¬ (k ∈ keys (Diff lhs rhs p) ∧ k ∈ keys (Diff rhs lhs p))) ∧
    (∀ k v, get? (SymDiff lhs rhs p) k = some v
      ↔ get? (Diff lhs rhs p) k = some v ∨ get? (Diff rhs lhs p) k = some v) ∧
    (∀ (f : MergeFunc V) k, get? (Union (Diff lhs rhs p) (Diff rhs lhs p) p f) k
      = get? (SymDiff lhs rhs p) k) ∧
    (∀ k v, get? (SymDiff lhs rhs p) k = some v
      ↔ (qual? lhs p k = some v ∧ qual? rhs p k = none) ∨
        (qual? rhs p k = some v ∧ qual? lhs p k = none)) := by
  have hdisj : ∀ k a b, get? (Diff lhs rhs p) k = some a →
      get? (Diff rhs lhs p) k = some b → False := by
    intro k a b ha hb
    rw [get?_Diff_iff hl] at ha
    rw [get?_Diff_iff hr] at hb
    rw [hb.2] at ha
    exact Option.noConfusion ha.1
  have hunion : ∀ k v, get? (SymDiff lhs rhs p) k = some v
      ↔ get? (Diff lhs rhs p) k = some v ∨ get? (Diff rhs lhs p) k = some v := by
    intro k v
    rw [get?_SymDiff_iff hl hr, get?_Diff_iff hl, get?_Diff_iff hr]
  refine ⟨?_, hunion, ?_, fun k v => get?_SymDiff_iff hl hr p k v⟩
  · rintro k ⟨h1, h2⟩
    obtain ⟨a, ha⟩ := (mem_keys_iff _ k).1 h1
    obtain ⟨b, hb⟩ := (mem_keys_iff _ k).1 h2
    exact hdisj k a b ha hb
  · intro f k
    have hq1 : qual? (Diff lhs rhs p) p k = get? (Diff lhs rhs p) k := by
      apply Option.ext
      intro v
      simp only [Option.mem_def]
      rw [qual?_eq_some_iff]
      constructor
      · exact fun h => h.1
      · intro h
        refine ⟨h, ?_⟩
        rw [get?_Diff_iff hl, qual?_eq_some_iff] at h
        exact h.1.2
    have hq2 : qual? (Diff rhs lhs p) p k = get? (Diff rhs lhs p) k := by
      apply Option.ext
      intro v
      simp only [Option.mem_def]
      rw [qual?_eq_some_iff]
      constructor
      · exact fun h => h.1
      · intro h
        refine ⟨h, ?_⟩
        rw [get?_Diff_iff hr, qual?_eq_some_iff] at h
        exact h.1.2
    rw [get?_Union (WF_Diff lhs rhs p) (WF_Diff rhs lhs p), hq1, hq2]
    apply Option.ext
    intro v
    simp only [Option.mem_def]
    rw [hunion]
    cases h1 : get? (Diff lhs rhs p) k with
    | none =>
      cases h2 : get? (Diff rhs lhs p) k <;> simp
    | some a =>
      cases h2 : get? (Diff rhs lhs p) k with
      | none => simp
      | some b => exact (hdisj k a b h1 h2).elim

/-- The scenario of `ExampleSymDiff`: with `p = (v >= 0)`,
`SymDiff({a:0,b:1,d:-5}, {b:2,c:1,d:5,e:7}, p)` is `{a:0, c:1, d:5, e:7}`. -/
theorem SymDiff_spec_witness :
    WF [("a", (0 : Int)), ("b", 1), ("d", -5)] ∧
    WF [("b", (2 : Int)), ("c", 1), ("d", 5), ("e", 7)] ∧
    ¬ ("d" ∈ keys (Diff [("a", (0 : Int)), ("b", 1), ("d", -5)]
        [("b", 2), ("c", 1), ("d", 5), ("e", 7)] (some (fun n => decide (0 ≤ n)))) ∧
      "d" ∈ keys (Diff [("b", (2 : Int)), ("c", 1), ("d", 5), ("e", 7)]
        [("a", 0), ("b", 1), ("d", -5)] (some (fun n => decide (0 ≤ n))))) ∧
    SymDiff [("a", (0 : Int)), ("b", 1), ("d", -5)] [("b", 2), ("c", 1), ("d", 5), ("e", 7)]
      (some (fun n => decide (0 ≤ n))) = [("a", 0), ("c", 1), ("d", 5), ("e", 7)] ∧
    SymDiff [("a", (0 : Int)), ("b", 1), ("d", -5)] [("b", 2), ("c", 1), ("d", 5), ("e", 7)]
      none = [("a", 0), ("c", 1), ("e", 7)] :=
  ⟨by decide, by decide,
    (SymDiff_spec [("a", (0 : Int)), ("b", 1), ("d", -5)]
      [("b", 2), ("c", 1), ("d", 5), ("e", 7)] (some (fun n => decide (0 ≤ n)))
      (by decide) (by decide)).1 "d",
    by decide, by decide⟩

end mapset

/-! ## Purge and Subset -/

namespace mapset

theorem WF_inj {K V : Type} [DecidableEq K] {m : GoMap K V} (hm : WF m) {e a : K × V}
    (he : e ∈ m) (ha : a ∈ m) (hk : e.1 = a.1) : e = a := by
  obtain ⟨k, v⟩ := e
  obtain ⟨k', w⟩ := a
  simp only at hk
  subst hk
  have h1 := (get?_eq_some_iff hm k v).2 he
  have h2 := (get?_eq_some_iff hm k w).2 ha
  rw [h1] at h2
  cases h2
  rfl

/-- The loop of `Purge` over the entries `l`, run on the map `acc`, removes from `acc` the
keys of the entries of `l` that fail the check. -/
theorem foldl_purgeStep {K V : Type} [DecidableEq K] (contains : ContainsFunc V)
    (l acc : GoMap K V) :
    l.foldl (purgeStep contains) acc
      = acc.filter (fun a => !(l.any (fun e => !contains.Check e.2 && decide (e.1 = a.1)))) := by
  induction l generalizing acc with
  | nil => simp
  | cons e t ih =>
    rw [List.foldl_cons, ih]
    unfold purgeStep
    by_cases hc : contains.Check e.2 = true
    · simp only [hc, Bool.not_true, Bool.false_eq_true, if_false, List.any_cons,
        Bool.false_and, Bool.false_or]
    · simp only [Bool.not_eq_true] at hc
      simp only [hc, Bool.not_false, if_true, delete, List.filter_filter, List.any_cons,
        Bool.true_and]
      apply List.filter_congr
      intro a _
      by_cases hk : e.1 = a.1
      · simp [hk]
      · have hk' : ¬ a.1 = e.1 := fun h => hk h.symm
        simp [hk, hk']

/-- The map after `Purge` is the map before it without the entries that fail the check,
the other entries staying in place. -/
theorem Purge_eq_filter {K V : Type} [DecidableEq K] {m : GoMap K V} (hm : WF m)
    (contains : ContainsFunc V) :
    Purge m contains = m.filter (fun e => contains.Check e.2) := by
  cases contains with
  | none =>
    show m = _
    simp [ContainsFunc.Check]
  | some f =>
    show m.foldl (purgeStep (some f)) m = _
    rw [foldl_purgeStep]
    apply List.filter_congr
    intro a ha
    by_cases hc : ContainsFunc.Check (some f) a.2 = true
    · rw [hc]
      have : (m.any (fun e => !ContainsFunc.Check (some f) e.2 && decide (e.1 = a.1)))
          = false := by
        rw [List.any_eq_false]
        intro e he h
        simp only [Bool.and_eq_true, Bool.not_eq_true', decide_eq_true_eq] at h
        have := WF_inj hm he ha h.2
        subst this
        rw [hc] at h
        exact Bool.noConfusion h.1
      rw [this]
      rfl
    · simp only [Bool.not_eq_true] at hc
      rw [hc]
      have : (m.any (fun e => !ContainsFunc.Check (some f) e.2 && decide (e.1 = a.1)))
          = true := by
        rw [List.any_eq_true]
        exact ⟨a, ha, by simp [hc]⟩
      rw [this]
      rfl

theorem WF_filter {K V : Type} {m : GoMap K V} (hm : WF m) (q : K × V → Bool) :
    WF (m.filter q) := by
  unfold WF keys at *
  exact List.Nodup.sublist (List.Sublist.map _ (List.filter_sublist m)) hm

/-- C18: for a map `m` and a predicate `p`, after `Purge m p` the map holds exactly the
entries of the map before the call whose values pass `p`, with their values (all entries
when `p` is nil); a second `Purge` with `p` leaves the map as it is after the first. -/
theorem Purge_spec {K V : Type} [DecidableEq K] (m : GoMap K V) (p : ContainsFunc V)
    (hm : WF m) :
    WF (Purge m p) ∧
    (∀ k v, get? (Purge m p) k = some v ↔ get? m k = some v ∧ p.Check v = true) ∧
    Purge m none = m ∧
    Purge (Purge m p) p = Purge m p := by
  have hw : WF (Purge m p) := by
    rw [Purge_eq_filter hm]
    exact WF_filter hm _
  refine ⟨hw, ?_, rfl, ?_⟩
  · intro k v
    rw [get?_eq_some_iff hw, get?_eq_some_iff hm, Purge_eq_filter hm, List.mem_filter]
  · rw [Purge_eq_filter hw, Purge_eq_filter hm, List.filter_filter]
    apply List.filter_congr
    intro a _
    simp

/-- The scenario of `ExamplePurge`: `Purge({a:-1, b:0, c:1}, v >= 0)` leaves
`{b:0, c:1}`, and a nil predicate leaves the map as it is. -/
theorem Purge_spec_witness :
    WF [("a", (-1 : Int)), ("b", 0), ("c", 1)] ∧
    Purge (Purge [("a", (-1 : Int)), ("b", 0), ("c", 1)] (some (fun n => decide (0 ≤ n))))
        (some (fun n => decide (0 ≤ n)))
      = Purge [("a", (-1 : Int)), ("b", 0), ("c", 1)] (some (fun n => decide (0 ≤ n))) ∧
    Purge [("a", (-1 : Int)), ("b", 0), ("c", 1)] (some (fun n => decide (0 ≤ n)))
      = [("b", 0), ("c", 1)] ∧
    Purge [("a", (-1 : Int)), ("b", 0), ("c", 1)] none = [("a", -1), ("b", 0), ("c", 1)] :=
  ⟨by decide,
    (Purge_spec [("a", (-1 : Int)), ("b", 0), ("c", 1)] (some (fun n => decide (0 ≤ n)))
      (by decide)).2.2.2,
    by decide, by decide⟩

/-- The function `Subset` holds iff every entry of `lhs` that passes the check has its
key contained in `rhs`. -/
theorem Subset_iff {K V : Type} [DecidableEq K] (lhs rhs : GoMap K V)
    (contains : ContainsFunc V) :
    Subset lhs rhs contains = true
      ↔ ∀ e ∈ lhs, contains.Check e.2 = true → Contains rhs e.1 contains = true := by
  unfold Subset subset
  rw [subsetLoop_eq]
  by_cases h : ∀ e ∈ lhs, contains.Check e.2 = true → Contains rhs e.1 contains = true
  · simp only [if_pos h, true_iff]
    exact h
  · simp only [if_neg h, false_iff]
    simpa using h

/-- C20: for maps `lhs` and `rhs` and a predicate `p` (which may be nil),
`Subset lhs rhs p` is true iff every key that qualifies in `lhs` also qualifies in `rhs`,
whatever the values; and `Subset a a p` is true. -/
theorem Subset_spec {K V : Type} [DecidableEq K] (lhs rhs : GoMap K V)
    (p : ContainsFunc V) (hl : WF lhs) :
    (Subset lhs rhs p = true
      ↔ ∀ k v, qual? lhs p k = some v → ∃ w, qual? rhs p k = some w) ∧
    Subset lhs lhs p = true := by
  have hC : ∀ (m : GoMap K V) k, Contains m k p = true ↔ ∃ w, qual? m p k = some w := by
    intro m k
    rw [Contains_eq, Option.isSome_iff_exists]
  constructor
  · rw [Subset_iff]
    constructor
    · intro h k v hq
      rw [qual?_eq_some_iff, get?_eq_some_iff hl] at hq
      exact (hC rhs k).1 (h (k, v) hq.1 hq.2)
    · intro h e he hc
      exact (hC rhs e.1).2 (h e.1 e.2
        ((qual?_eq_some_iff _ _ _ _).2 ⟨(get?_eq_some_iff hl e.1 e.2).2 he, hc⟩))
  · rw [Subset_iff]
    intro e he hc
    exact (hC lhs e.1).2 ⟨e.2,
      (qual?_eq_some_iff _ _ _ _).2 ⟨(get?_eq_some_iff hl e.1 e.2).2 he, hc⟩⟩

/-- The scenario of `ExampleSubset`: the keys of `{a:4, b:7}` are a subset of those of
`{a:3, b:2, c:1}`, not conversely; and an entry that fails the predicate is ignored. -/
theorem Subset_spec_witness :
    WF [("a", (4 : Int)), ("b", 7)] ∧
    Subset [("a", (4 : Int)), ("b", 7)] [("a", 4), ("b", 7)] none = true ∧
    Subset [("a", (4 : Int)), ("b", 7)] [("a", 3), ("b", 2), ("c", 1)] none = true ∧
    Subset [("a", (3 : Int)), ("b", 2), ("c", 1)] [("a", 4), ("b", 7)] none = false ∧
    Subset [("a", (3 : Int)), ("b", 2), ("c", -1)] [("a", 4), ("b", 7)]
      (some (fun n => decide (0 ≤ n))) = true :=
  ⟨by decide, (Subset_spec [("a", (4 : Int)), ("b", 7)] [] none (by decide)).2,
    by decide, by decide, by decide⟩

end mapset

/-! ## Counting the entries of Union -/

namespace mapset

theorem Len_eq {K V : Type} (m : GoMap K V) (contains : ContainsFunc V) :
    Len m contains = (qualKeys m contains).length := by
  have h : ∀ (l : GoMap K V) (n : Nat),
      l.foldl (fun n e => if contains.Check e.2 then n + 1 else n) n
        = n + (l.filter (fun e => contains.Check e.2)).length := by
    intro l
    induction l with
    | nil => simp
    | cons e t ih =>
      intro n
      rw [List.foldl_cons, ih]
      by_cases hc : contains.Check e.2 = true
      · simp [hc, List.filter_cons]
        omega
      · simp [hc, List.filter_cons]
  unfold Len qualKeys
  rw [h, List.length_map, Nat.zero_add]

theorem nodup_qualKeys {K V : Type} {m : GoMap K V} (hm : WF m) (contains : ContainsFunc V) :
    (qualKeys m contains).Nodup :=
  WF_filter hm _

theorem mem_qualKeys {K V : Type} [DecidableEq K] {m : GoMap K V} (hm : WF m)
    (contains : ContainsFunc V) (k : K) :
    k ∈ qualKeys m contains ↔ ∃ v, qual? m contains k = some v := by
  unfold qualKeys
  constructor
  · intro h
    obtain ⟨e, he, rfl⟩ := List.mem_map.1 h
    rw [List.mem_filter] at he
    exact ⟨e.2, (qual?_eq_some_iff _ _ _ _).2 ⟨(get?_eq_some_iff hm e.1 e.2).2 he.1, he.2⟩⟩
  · rintro ⟨v, hv⟩
    rw [qual?_eq_some_iff, get?_eq_some_iff hm] at hv
    exact List.mem_map.2 ⟨(k, v), List.mem_filter.2 ⟨hv.1, hv.2⟩, rfl⟩

theorem mem_bothKeys {K V : Type} [DecidableEq K] {a : GoMap K V} (ha : WF a)
    (b : GoMap K V) (contains : ContainsFunc V) (k : K) :
    k ∈ bothKeys a b contains
      ↔ (∃ v, qual? a contains k = some v) ∧ ∃ w, qual? b contains k = some w := by
  unfold bothKeys
  rw [List.mem_filter, mem_qualKeys ha, Contains_eq, Option.isSome_iff_exists]

theorem mem_demotedKeys {K V : Type} [DecidableEq K] {a : GoMap K V} (ha : WF a)
    (b : GoMap K V) (contains : ContainsFunc V) (merge : MergeFunc V) (k : K) :
    k ∈ demotedKeys a b contains merge
      ↔ ∃ v w, qual? a contains k = some v ∧ qual? b contains k = some w ∧
          contains.Check (merge.Into v w) = false := by
  unfold demotedKeys
  constructor
  · intro h
    obtain ⟨e, he, rfl⟩ := List.mem_map.1 h
    rw [List.mem_filter] at he
    obtain ⟨hmem, hcond⟩ := he
    simp only [Bool.and_eq_true] at hcond
    cases hg : get? b e.1 with
    | none =>
      rw [hg] at hcond
      exact Bool.noConfusion hcond.2
    | some w =>
      rw [hg] at hcond
      simp only [Bool.and_eq_true, Bool.not_eq_true'] at hcond
      exact ⟨e.2, w,
        (qual?_eq_some_iff _ _ _ _).2 ⟨(get?_eq_some_iff ha e.1 e.2).2 hmem, hcond.1⟩,
        (qual?_eq_some_iff _ _ _ _).2 ⟨hg, hcond.2.1⟩, hcond.2.2⟩
  · rintro ⟨v, w, hv, hw, hc⟩
    rw [qual?_eq_some_iff] at hv hw
    refine List.mem_map.2 ⟨(k, v), List.mem_filter.2 ⟨(get?_eq_some_iff ha k v).1 hv.1, ?_⟩, rfl⟩
    simp [hv.2, hw.1, hw.2, hc]

/-- The keys of `Union` are the keys that qualify in an operand, less the keys whose
merged value fails the check. -/
theorem mem_keys_Union {K V : Type} [DecidableEq K] {a b : GoMap K V} (ha : WF a)
    (hb : WF b) (contains : ContainsFunc V) (merge : MergeFunc V) (k : K) :
    k ∈ keys (Union a b contains merge)
      ↔ (k ∈ qualKeys a contains ∨ k ∈ qualKeys b contains) ∧
          k ∉ demotedKeys a b contains merge := by
  rw [mem_keys_iff, get?_Union ha hb, mem_qualKeys ha, mem_qualKeys hb, mem_demotedKeys ha]
  cases h1 : qual? a contains k with
  | none => cases h2 : qual? b contains k <;> simp
  | some v =>
    cases h2 : qual? b contains k with
    | none => simp
    | some w => by_cases hc : contains.Check (merge.Into v w) = true <;> simp [hc]

/-- C19: for maps `a` and `b`, a predicate `p` and a merge `f` (either may be nil), the
number of entries of `Union a b p f` is `Len a p + Len b p - |B| - |D|`, where `B` is the
set of the keys that qualify in both `a` and `b` and `D` the set of the keys of `B` whose
merged value `Into f a[k] b[k]` fails `p`. -/
theorem Union_length {K V : Type} [DecidableEq K] (a b : GoMap K V) (p : ContainsFunc V)
    (f : MergeFunc V) (ha : WF a) (hb : WF b) :
    (Union a b p f).length
      = Len a p + Len b p - (bothKeys a b p).length - (demotedKeys a b p f).length ∧
    (Union a b p f).length + (bothKeys a b p).length + (demotedKeys a b p f).length
      = Len a p + Len b p ∧
    (bothKeys a b p).Nodup ∧ (demotedKeys a b p f).Nodup ∧
    (∀ k, k ∈ bothKeys a b p ↔ (∃ v, qual? a p k = some v) ∧ ∃ w, qual? b p k = some w) ∧
    (∀ k, k ∈ demotedKeys a b p f
      ↔ ∃ v w, qual? a p k = some v ∧ qual? b p k = some w ∧
          p.Check (f.Into v w) = false) := by
  have hB : (bothKeys a b p).Nodup := List.Nodup.filter _ (nodup_qualKeys ha p)
  have hD : (demotedKeys a b p f).Nodup := WF_filter ha _
  have hU : (keys (Union a b p f)).toFinset
      = ((qualKeys a p).toFinset ∪ (qualKeys b p).toFinset) \ (demotedKeys a b p f).toFinset := by
    ext k
    simp only [List.mem_toFinset, Finset.mem_sdiff, Finset.mem_union]
    exact mem_keys_Union ha hb p f k
  have hI : (bothKeys a b p).toFinset = (qualKeys a p).toFinset ∩ (qualKeys b p).toFinset := by
    ext k
    simp only [List.mem_toFinset, Finset.mem_inter]
    rw [mem_bothKeys ha, mem_qualKeys ha, mem_qualKeys hb]
  have hsub : (demotedKeys a b p f).toFinset
      ⊆ (qualKeys a p).toFinset ∪ (qualKeys b p).toFinset := by
    intro k hk
    simp only [List.mem_toFinset, Finset.mem_union] at hk ⊢
    rw [mem_demotedKeys ha] at hk
    obtain ⟨v, w, hv, _, _⟩ := hk
    exact Or.inl ((mem_qualKeys ha p k).2 ⟨v, hv⟩)
  have hDB : (demotedKeys a b p f).toFinset ⊆ (bothKeys a b p).toFinset := by
    intro k hk
    simp only [List.mem_toFinset] at hk ⊢
    rw [mem_demotedKeys ha] at hk
    obtain ⟨v, w, hv, hw, _⟩ := hk
    exact (mem_bothKeys ha b p k).2 ⟨⟨v, hv⟩, ⟨w, hw⟩⟩
  have c1 : (Union a b p f).length = (keys (Union a b p f)).toFinset.card := by
    rw [List.toFinset_card_of_nodup (WF_Union a b p f)]
    simp [keys]
  have c2 : Len a p = (qualKeys a p).toFinset.card := by
    rw [List.toFinset_card_of_nodup (nodup_qualKeys ha p), Len_eq]
  have c3 : Len b p = (qualKeys b p).toFinset.card := by
    rw [List.toFinset_card_of_nodup (nodup_qualKeys hb p), Len_eq]
  have c4 : (bothKeys a b p).length = (bothKeys a b p).toFinset.card :=
    (List.toFinset_card_of_nodup hB).symm
  have c5 : (demotedKeys a b p f).length = (demotedKeys a b p f).toFinset.card :=
    (List.toFinset_card_of_nodup hD).symm
  have c6 := Finset.card_sdiff hsub
  have c7 := Finset.card_union_add_card_inter (qualKeys a p).toFinset (qualKeys b p).toFinset
  have c8 := Finset.card_le_card hsub
  have c9 := Finset.card_le_card hDB
  rw [← hU] at c6
  rw [← hI] at c7
  refine ⟨by omega, by omega, hB, hD, mem_bothKeys ha b p, mem_demotedKeys ha b p f⟩

/-- The scenario of `ExampleUnion`: the union `{b:3, c:1}` has 2 entries, the operands
have 2 and 3 qualifying keys, `B = {b, d}` and `D = {d}`. -/
theorem Union_length_witness :
    WF [("a", (0 : Int)), ("b", 1), ("d", -5)] ∧ WF [("b", (2 : Int)), ("c", 1), ("d", 5)] ∧
    (Union [("a", (0 : Int)), ("b", 1), ("d", -5)] [("b", 2), ("c", 1), ("d", 5)]
        (some (fun v => v != 0)) (some (fun a b => a + b))).length
      = Len [("a", (0 : Int)), ("b", 1), ("d", -5)] (some (fun v => v != 0))
        + Len [("b", (2 : Int)), ("c", 1), ("d", 5)] (some (fun v => v != 0))
        - (bothKeys [("a", (0 : Int)), ("b", 1), ("d", -5)] [("b", 2), ("c", 1), ("d", 5)]
            (some (fun v => v != 0))).length
        - (demotedKeys [("a", (0 : Int)), ("b", 1), ("d", -5)] [("b", 2), ("c", 1), ("d", 5)]
            (some (fun v => v != 0)) (some (fun a b => a + b))).length ∧
    bothKeys [("a", (0 : Int)), ("b", 1), ("d", -5)] [("b", 2), ("c", 1), ("d", 5)]
      (some (fun v => v != 0)) = ["b", "d"] ∧
    demotedKeys [("a", (0 : Int)), ("b", 1), ("d", -5)] [("b", 2), ("c", 1), ("d", 5)]
      (some (fun v => v != 0)) (some (fun a b => a + b)) = ["d"] :=
  ⟨by decide, by decide,
    (Union_length [("a", (0 : Int)), ("b", 1), ("d", -5)] [("b", 2), ("c", 1), ("d", 5)]
      (some (fun v => v != 0)) (some (fun a b => a + b)) (by decide) (by decide)).1,
    by decide, by decide⟩

end mapset

/-! ## ProperSubset and Equal with a nil predicate -/

namespace mapset

/-- The pair that `subset` returns: its flag is `Subset`, and when the flag is true its
count is the number of entries stored in `lhs`. -/
theorem subset_eq {K V : Type} [DecidableEq K] (lhs rhs : GoMap K V)
    (contains : ContainsFunc V) :
    subset lhs rhs contains
      = if Subset lhs rhs contains = true then (lhs.length, true) else (0, false) := by
  have h := subsetLoop_eq rhs contains lhs 0
  unfold Subset subset
  rw [h, Nat.zero_add]
  by_cases hp : ∀ e ∈ lhs, contains.Check e.2 = true → Contains rhs e.1 contains = true
  · simp only [if_pos hp, if_true]
  · simp only [if_neg hp, Bool.false_eq_true, if_false]

/-- What `ProperSubset` computes, for any predicate. -/
theorem ProperSubset_iff {K V : Type} [DecidableEq K] (lhs rhs : GoMap K V)
    (contains : ContainsFunc V) :
    ProperSubset lhs rhs contains = true
      ↔ Subset lhs rhs contains = true ∧ rhs.length ≠ lhs.length ∧
          Subset rhs lhs contains = false := by
  unfold ProperSubset
  rw [subset_eq lhs rhs, subset_eq rhs lhs]
  by_cases h1 : Subset lhs rhs contains = true
  · by_cases h2 : rhs.length = lhs.length
    · simp [h1, h2]
    · by_cases h3 : Subset rhs lhs contains = true
      · simp [h1, h2, h3]
      · simp [h1, h2, h3]
  · simp [h1]

/-- What `Equal` computes, for any predicate. -/
theorem Equal_iff {K V : Type} [DecidableEq K] (lhs rhs : GoMap K V)
    (contains : ContainsFunc V) :
    Equal lhs rhs contains = true
      ↔ Subset lhs rhs contains = true ∧ Subset rhs lhs contains = true ∧
          lhs.length = rhs.length := by
  unfold Equal
  rw [subset_eq lhs rhs, subset_eq rhs lhs]
  by_cases h1 : Subset lhs rhs contains = true
  · by_cases h3 : Subset rhs lhs contains = true
    · simp [h1, h3]
    · simp [h1, h3]
  · simp [h1]

theorem Len_nil {K V : Type} (m : GoMap K V) : Len m none = m.length := by
  rw [Len_eq]
  simp [qualKeys, ContainsFunc.Check]

/-- With a nil predicate, `Subset` is inclusion of the stored keys. -/
theorem Subset_nil_iff {K V : Type} [DecidableEq K] (lhs rhs : GoMap K V) :
    Subset lhs rhs none = true ↔ ∀ k, k ∈ keys lhs → k ∈ keys rhs := by
  have hC : ∀ k, Contains rhs k none = true ↔ k ∈ keys rhs := by
    intro k
    rw [mem_keys_iff]
    unfold Contains
    cases get? rhs k <;> simp [ContainsFunc.Check]
  rw [Subset_iff]
  constructor
  · intro h k hk
    obtain ⟨e, he, rfl⟩ := List.mem_map.1 hk
    exact (hC e.1).1 (h e he rfl)
  · intro h e he _
    exact (hC e.1).2 (h e.1 (List.mem_map.2 ⟨e, he, rfl⟩))

theorem length_le_of_keys_subset {K V : Type} [DecidableEq K] {a b : GoMap K V} (ha : WF a)
    (h : ∀ k, k ∈ keys a → k ∈ keys b) : a.length ≤ b.length := by
  have h1 : (keys a).length ≤ (keys b).length :=
    List.Subperm.length_le (List.Nodup.subperm ha h)
  simpa [keys] using h1

/-- Keys of `a` all stored in `b`, and as many entries: then the keys of `b` are all
stored in `a`. -/
theorem keys_subset_of_length_le {K V : Type} [DecidableEq K] {a b : GoMap K V} (ha : WF a)
    (hb : WF b) (h : ∀ k, k ∈ keys a → k ∈ keys b) (hlen : b.length ≤ a.length) :
    ∀ k, k ∈ keys b → k ∈ keys a := by
  have hsub : (keys a).toFinset ⊆ (keys b).toFinset := by
    intro k hk
    rw [List.mem_toFinset] at hk ⊢
    exact h k hk
  have hcard : (keys b).toFinset.card ≤ (keys a).toFinset.card := by
    rw [List.toFinset_card_of_nodup ha, List.toFinset_card_of_nodup hb]
    simpa [keys] using hlen
  have heq := Finset.eq_of_subset_of_card_le hsub hcard
  intro k hk
  have : k ∈ (keys b).toFinset := List.mem_toFinset.2 hk
  rw [← heq] at this
  exact List.mem_toFinset.1 this

/-- C21: with a nil predicate, for maps `a` and `b`, `ProperSubset a b nil` is true iff
every key of `a` is a key of `b` and some key of `b` is not a key of `a`, that is, iff
`Subset a b nil` holds and the numbers of entries differ; `ProperSubset a a nil` is
false and `Subset a a nil` is true. -/
theorem ProperSubset_nil_spec {K V : Type} [DecidableEq K] (a b : GoMap K V)
    (ha : WF a) (hb : WF b) :
    (ProperSubset a b none = true
      ↔ (∀ k, k ∈ keys a → k ∈ keys b) ∧ ∃ k, k ∈ keys b ∧ k ∉ keys a) ∧
    (ProperSubset a b none = true ↔ Subset a b none = true ∧ Len a none ≠ Len b none) ∧
    ProperSubset a a none = false ∧ Subset a a none = true := by
  have hnot : Subset b a none = false ↔ ∃ k, k ∈ keys b ∧ k ∉ keys a := by
    rw [← Bool.not_eq_true, Subset_nil_iff]
    push_neg
    rfl
  refine ⟨?_, ?_, ?_, ?_⟩
  · rw [ProperSubset_iff, Subset_nil_iff, hnot]
    constructor
    · exact fun h => ⟨h.1, h.2.2⟩
    · rintro ⟨h1, k, hk, hk'⟩
      refine ⟨h1, ?_, k, hk, hk'⟩
      intro hlen
      exact hk' (keys_subset_of_length_le ha hb h1 (le_of_eq hlen) k hk)
  · rw [ProperSubset_iff, Len_nil, Len_nil]
    constructor
    · exact fun h => ⟨h.1, fun h' => h.2.1 h'.symm⟩
    · rintro ⟨h1, h2⟩
      refine ⟨h1, fun h' => h2 h'.symm, ?_⟩
      rw [← Bool.not_eq_true]
      intro h3
      rw [Subset_nil_iff] at h1 h3
      have l1 := length_le_of_keys_subset ha h1
      have l2 := length_le_of_keys_subset hb h3
      omega
  · rw [← Bool.not_eq_true, ProperSubset_iff]
    exact fun h => h.2.1 rfl
  · rw [Subset_nil_iff]
    exact fun _ h => h

/-- The scenario of `ExampleProperSubset`: the keys of `{a:4, b:7}` are a proper subset
of those of `{a:3, b:2, c:1}`, not of their own, and not conversely. -/
theorem ProperSubset_nil_spec_witness :
    WF [("a", (4 : Int)), ("b", 7)] ∧ WF [("a", (3 : Int)), ("b", 2), ("c", 1)] ∧
    (ProperSubset [("a", (4 : Int)), ("b", 7)] [("a", 3), ("b", 2), ("c", 1)] none = true
      ↔ Subset [("a", (4 : Int)), ("b", 7)] [("a", 3), ("b", 2), ("c", 1)] none = true ∧
        Len [("a", (4 : Int)), ("b", 7)] none
          ≠ Len [("a", (3 : Int)), ("b", 2), ("c", 1)] none) ∧
    ProperSubset [("a", (4 : Int)), ("b", 7)] [("a", 3), ("b", 2), ("c", 1)] none = true ∧
    ProperSubset [("a", (4 : Int)), ("b", 7)] [("a", 4), ("b", 7)] none = false ∧
    ProperSubset [("a", (3 : Int)), ("b", 2), ("c", 1)] [("a", 4), ("b", 7)] none = false :=
  ⟨by decide, by decide,
    (ProperSubset_nil_spec [("a", (4 : Int)), ("b", 7)] [("a", 3), ("b", 2), ("c", 1)]
      (by decide) (by decide)).2.1,
    by decide, by decide, by decide⟩

/-- C22: with a nil predicate, for maps `a` and `b`, `Equal a b nil` is true iff
`Subset a b nil` and `Subset b a nil` hold and `Len a nil == Len b nil`, that is, iff `a`
and `b` store exactly the same keys, whatever the values. -/
theorem Equal_nil_spec {K V : Type} [DecidableEq K] (a b : GoMap K V)
    (ha : WF a) (hb : WF b) :
    (Equal a b none = true
      ↔ Subset a b none = true ∧ Subset b a none = true ∧ Len a none = Len b none) ∧
    (Equal a b none = true ↔ ∀ k, k ∈ keys a ↔ k ∈ keys b) := by
  constructor
  · rw [Equal_iff, Len_nil, Len_nil]
  · rw [Equal_iff, Subset_nil_iff, Subset_nil_iff]
    constructor
    · rintro ⟨h1, h2, _⟩ k
      exact ⟨h1 k, h2 k⟩
    · intro h
      have h1 : ∀ k, k ∈ keys a → k ∈ keys b := fun k => (h k).1
      have h2 : ∀ k, k ∈ keys b → k ∈ keys a := fun k => (h k).2
      have l1 := length_le_of_keys_subset ha h1
      have l2 := length_le_of_keys_subset hb h2
      exact ⟨h1, h2, by omega⟩

/-- The scenario of `ExampleEqual`: `{a:4, b:7, c:-1}` and `{a:3, b:2, c:11}` store the
same keys and are equal; `{b:2, c:11, d:86}` stores other keys. -/
theorem Equal_nil_spec_witness :
    WF [("a", (4 : Int)), ("b", 7), ("c", -1)] ∧ WF [("a", (3 : Int)), ("b", 2), ("c", 11)] ∧
    (Equal [("a", (4 : Int)), ("b", 7), ("c", -1)] [("a", 3), ("b", 2), ("c", 11)] none = true
      ↔ Subset [("a", (4 : Int)), ("b", 7), ("c", -1)] [("a", 3), ("b", 2), ("c", 11)] none
          = true ∧
        Subset [("a", (3 : Int)), ("b", 2), ("c", 11)] [("a", 4), ("b", 7), ("c", -1)] none
          = true ∧
        Len [("a", (4 : Int)), ("b", 7), ("c", -1)] none
          = Len [("a", (3 : Int)), ("b", 2), ("c", 11)] none) ∧
    Equal [("a", (4 : Int)), ("b", 7), ("c", -1)] [("a", 3), ("b", 2), ("c", 11)] none = true ∧
    Equal [("a", (4 : Int)), ("b", 7), ("c", -1)] [("b", 2), ("c", 11), ("d", 86)] none
      = false :=
  ⟨by decide, by decide,
    (Equal_nil_spec [("a", (4 : Int)), ("b", 7), ("c", -1)] [("a", 3), ("b", 2), ("c", 11)]
      (by decide) (by decide)).1,
    by decide, by decide⟩

end mapset
